import Mathlib

/-!
# Verification of the BulkDel snapshot/delete/rollback core

Shallow embedding of the core logic of `src/vite.config.js` (the BulkDel
Lark-Base plugin): decimal printing of numbers, a model of the platform's
JSON text serialization (`JSON.stringify` / `JSON.parse`, with numbers
restricted to integers, which covers every number the snapshot format
writes: field-type enum codes), the snapshot capture engine
(`captureSnapshot`), the persistence layer (`persistSnapshot` /
`loadPersistedSnapshot` / the bridge `loadSnapshot`), the deletion executor
(`performDeletion`), the delete flow (`handleDelete`) and the rollback
engine (`handleRollback`).

Host (Workspace Gateway) calls are modelled as deterministic operations on
an explicit workspace state; a call that the host would reject (deleting a
missing table or field) records an error, as the surrounding try/catch in
the source does.  Strings are Lean strings (Unicode scalar values; lone
UTF-16 surrogates are outside the model).
-/

namespace BulkDel

/-! ## Decimal digits (models JS number-to-string for integers) -/

/-- The character for a decimal digit `n < 10`. -/
def digitChar (n : Nat) : Char := Char.ofNat (48 + n)

/-- Decimal digits of a natural number, most significant first, prepended
to `acc` (models the JS decimal rendering of a nonnegative integer).
Structural recursion on a fuel; the number itself is always enough fuel
since the value shrinks by a factor of ten per step. -/
def natToDigitsCore : Nat → Nat → List Char → List Char
  | 0, n, acc => digitChar n :: acc
  | fuel + 1, n, acc =>
    if n < 10 then digitChar n :: acc
    else natToDigitsCore fuel (n / 10) (digitChar (n % 10) :: acc)

/-- Decimal digits of a natural number, most significant first. -/
def natToDigits (n : Nat) : List Char := natToDigitsCore n n []

/-- Decimal rendering of a natural number as a string. -/
def natToStr (n : Nat) : String := ⟨natToDigits n⟩

/-- Is `c` one of the ASCII digits `0`–`9`? -/
def isDigitChar (c : Char) : Bool := 48 ≤ c.toNat && c.toNat ≤ 57

/-- Value of a digit list, most significant first. -/
def digitsVal (ds : List Char) : Nat :=
  ds.foldl (fun a c => a * 10 + (c.toNat - 48)) 0

theorem digitChar_toNat {n : Nat} (h : n < 10) : (digitChar n).toNat = 48 + n := by
  interval_cases n <;> decide

theorem isDigitChar_digitChar {n : Nat} (h : n < 10) : isDigitChar (digitChar n) = true := by
  interval_cases n <;> decide

theorem natToDigitsCore_lt {n : Nat} (fuel : Nat) (acc : List Char) (h : n < 10) :
    natToDigitsCore fuel n acc = digitChar n :: acc := by
  cases fuel with
  | zero => rfl
  | succ f => rw [natToDigitsCore, if_pos h]

theorem natToDigits_lt {n : Nat} (h : n < 10) : natToDigits n = [digitChar n] := by
  rw [natToDigits, natToDigitsCore_lt n [] h]

theorem natToDigitsCore_spec : ∀ (n fuel : Nat) (acc : List Char), n ≤ fuel →
    natToDigitsCore fuel n acc = natToDigits n ++ acc := by
  intro n
  induction n using Nat.strong_induction_on with
  | _ n ih =>
    intro fuel acc hle
    by_cases h : n < 10
    · rw [natToDigitsCore_lt fuel acc h, natToDigits_lt h]
      rfl
    · have hf : ∃ f, fuel = f + 1 := ⟨fuel - 1, by omega⟩
      obtain ⟨f, rfl⟩ := hf
      have hdiv : n / 10 < n := Nat.div_lt_self (by omega) (by omega)
      have hdf : n / 10 ≤ f := by omega
      rw [natToDigitsCore, if_neg h, ih _ hdiv f _ hdf]
      have hn : ∃ m, n = m + 1 := ⟨n - 1, by omega⟩
      obtain ⟨m, rfl⟩ := hn
      conv_rhs => rw [natToDigits]
      rw [natToDigitsCore, if_neg h, ih _ hdiv m _ (by omega)]
      simp

theorem natToDigits_eq_append {n : Nat} (h : ¬n < 10) :
    natToDigits n = natToDigits (n / 10) ++ [digitChar (n % 10)] := by
  have hn : ∃ m, n = m + 1 := ⟨n - 1, by omega⟩
  obtain ⟨m, rfl⟩ := hn
  rw [natToDigits, natToDigitsCore, if_neg h]
  have hdiv : (m + 1) / 10 ≤ m := by omega
  rw [natToDigitsCore_spec _ _ _ hdiv]

theorem natToDigits_ne_nil (n : Nat) : natToDigits n ≠ [] := by
  by_cases h : n < 10
  · rw [natToDigits_lt h]; simp
  · rw [natToDigits_eq_append h]; simp

theorem natToDigits_all_digits (n : Nat) :
    ∀ c ∈ natToDigits n, isDigitChar c = true := by
  induction n using Nat.strong_induction_on with
  | _ n ih =>
    intro c hc
    by_cases h : n < 10
    · rw [natToDigits_lt h] at hc
      rcases List.mem_singleton.mp hc with rfl
      exact isDigitChar_digitChar h
    · rw [natToDigits_eq_append h] at hc
      rcases List.mem_append.mp hc with hc | hc
      · exact ih _ (Nat.div_lt_self (by omega) (by omega)) c hc
      · rcases List.mem_singleton.mp hc with rfl
        exact isDigitChar_digitChar (Nat.mod_lt _ (by omega))

theorem digitsVal_append_singleton (ds : List Char) (c : Char) :
    digitsVal (ds ++ [c]) = digitsVal ds * 10 + (c.toNat - 48) := by
  simp [digitsVal]

theorem digitsVal_natToDigits (n : Nat) : digitsVal (natToDigits n) = n := by
  induction n using Nat.strong_induction_on with
  | _ n ih =>
    by_cases h : n < 10
    · rw [natToDigits_lt h]
      simp [digitsVal, digitChar_toNat h]
    · rw [natToDigits_eq_append h,
        digitsVal_append_singleton, ih _ (Nat.div_lt_self (by omega) (by omega)),
        digitChar_toNat (Nat.mod_lt _ (by omega))]
      omega

theorem natToDigits_injective : Function.Injective natToDigits := by
  intro a b h
  have := digitsVal_natToDigits a
  rw [h, digitsVal_natToDigits] at this
  omega

theorem natToStr_injective : Function.Injective natToStr := by
  intro a b h
  exact natToDigits_injective (congrArg String.data h)

/-! ## A model of JSON values and of the platform's JSON text form

JS numbers are IEEE doubles; the snapshot format only ever writes integers
(field-type enum codes), so numbers are modelled as `Int`.  Objects keep
their members in insertion order, as JS objects do for string keys. -/

mutual
inductive Json where
  | null : Json
  | bool (b : Bool) : Json
  | num (n : Int) : Json
  | str (s : String) : Json
  | arr (elems : JsonList) : Json
  | obj (members : JsonObj) : Json
inductive JsonList where
  | nil : JsonList
  | cons (hd : Json) (tl : JsonList) : JsonList
inductive JsonObj where
  | nil : JsonObj
  | cons (key : String) (val : Json) (tl : JsonObj) : JsonObj
end

/-- Lowercase hexadecimal digit, as `JSON.stringify` emits in escapes. -/
def hexDigit (n : Nat) : Char := if n < 10 then Char.ofNat (48 + n) else Char.ofNat (87 + n)

/-- How `JSON.stringify` renders one character inside a string literal. -/
def escapeChar (c : Char) : List Char :=
  if c = '"' then ['\\', '"']
  else if c = '\\' then ['\\', '\\']
  else if c = '\x08' then ['\\', 'b']
  else if c = '\t' then ['\\', 't']
  else if c = '\n' then ['\\', 'n']
  else if c = '\x0c' then ['\\', 'f']
  else if c = '\r' then ['\\', 'r']
  else if c.toNat < 32 then
    ['\\', 'u', '0', '0', hexDigit (c.toNat / 16), hexDigit (c.toNat % 16)]
  else [c]

/-- `JSON.stringify` of a string value. -/
def stringifyString (s : String) : List Char :=
  '"' :: (s.data.flatMap escapeChar ++ ['"'])

/-- Decimal rendering of an integer, as `JSON.stringify` emits it. -/
def intToDigits (n : Int) : List Char :=
  if n < 0 then '-' :: natToDigits n.natAbs else natToDigits n.natAbs

mutual
/-- Model of `JSON.stringify` (default options: no whitespace). -/
def stringifyJson : Json → List Char
  | .num n => intToDigits n
  | .str s => stringifyString s
  | .arr es => '[' :: (stringifyElems es ++ [']'])
  | .obj ms => '{' :: (stringifyMembers ms ++ ['}'])
  | .bool false => ['f', 'a', 'l', 's', 'e']
  | .bool true => ['t', 'r', 'u', 'e']
  | .null => ['n', 'u', 'l', 'l']
def stringifyElems : JsonList → List Char
  | .nil => []
  | .cons v .nil => stringifyJson v
  | .cons v tl => stringifyJson v ++ (',' :: stringifyElems tl)
def stringifyMembers : JsonObj → List Char
  | .nil => []
  | .cons k v .nil => stringifyString k ++ (':' :: stringifyJson v)
  | .cons k v tl =>
    stringifyString k ++ (':' :: (stringifyJson v ++ (',' :: stringifyMembers tl)))
end

/-- JSON whitespace, skipped by `JSON.parse` between tokens. -/
def isJsonWs (c : Char) : Bool := c = ' ' || c = '\t' || c = '\n' || c = '\r'

/-- Drop leading JSON whitespace. -/
def skipWs : List Char → List Char
  | [] => []
  | c :: rest => if isJsonWs c then skipWs rest else c :: rest

/-- Numeric value of one hexadecimal digit. -/
def hexVal (c : Char) : Option Nat :=
  if 48 ≤ c.toNat ∧ c.toNat ≤ 57 then some (c.toNat - 48)
  else if 97 ≤ c.toNat ∧ c.toNat ≤ 102 then some (c.toNat - 87)
  else if 65 ≤ c.toNat ∧ c.toNat ≤ 70 then some (c.toNat - 55)
  else none

/-- Decode one escape sequence (after the backslash).  Surrogate-pair
`\u` escapes are outside the model (Lean chars are Unicode scalar
values). -/
def unescapeChar : List Char → Option (Char × List Char)
  | '"' :: r => some ('"', r)
  | '\\' :: r => some ('\\', r)
  | '/' :: r => some ('/', r)
  | 'b' :: r => some ('\x08', r)
  | 'f' :: r => some ('\x0c', r)
  | 'n' :: r => some ('\n', r)
  | 'r' :: r => some ('\r', r)
  | 't' :: r => some ('\t', r)
  | 'u' :: h1 :: h2 :: h3 :: h4 :: r =>
    match hexVal h1, hexVal h2, hexVal h3, hexVal h4 with
    | some a, some b, some c2, some d =>
      some (Char.ofNat (((a * 16 + b) * 16 + c2) * 16 + d), r)
    | _, _, _, _ => none
  | _ => none

/-- Parse the body of a JSON string literal (after the opening quote), up
to and including the closing quote.  Structural recursion on a fuel: each
step consumes at least one input character, so the input length is always
enough fuel (`parseVal` supplies it). -/
def parseStringBody : Nat → List Char → Option (List Char × List Char)
  | 0, _ => none
  | _ + 1, [] => none
  | fuel + 1, c :: rest =>
    if c = '"' then some ([], rest)
    else if c = '\\' then
      match unescapeChar rest with
      | some (e, r) => (parseStringBody fuel r).map (fun p => (e :: p.1, p.2))
      | none => none
    else (parseStringBody fuel rest).map (fun p => (c :: p.1, p.2))

/-- Greedily take leading decimal digits. -/
def takeDigits : List Char → List Char × List Char
  | [] => ([], [])
  | c :: rest =>
    if isDigitChar c then
      let p := takeDigits rest
      (c :: p.1, p.2)
    else ([], c :: rest)

/-- Parse an integer token (an optional minus sign and decimal digits). -/
def parseIntToken (input : List Char) : Option (Int × List Char) :=
  match input with
  | '-' :: rest =>
    match takeDigits rest with
    | ([], _) => none
    | (ds, r) => some (-(digitsVal ds : Int), r)
  | _ =>
    match takeDigits input with
    | ([], _) => none
    | (ds, r) => some ((digitsVal ds : Int), r)

mutual
/-- Model of `JSON.parse`: parse one JSON value.  The fuel bounds nesting
and element counts; `jsonParse` below supplies enough for any input. -/
def parseVal : Nat → List Char → Option (Json × List Char)
  | 0, _ => none
  | fuel + 1, input =>
    match skipWs input with
    | 'n' :: 'u' :: 'l' :: 'l' :: rest => some (.null, rest)
    | 't' :: 'r' :: 'u' :: 'e' :: rest => some (.bool true, rest)
    | 'f' :: 'a' :: 'l' :: 's' :: 'e' :: rest => some (.bool false, rest)
    | '"' :: rest => (parseStringBody rest.length rest).map (fun p => (.str ⟨p.1⟩, p.2))
    | '[' :: rest =>
      match skipWs rest with
      | ']' :: r => some (.arr .nil, r)
      | other => (parseElems fuel other).map (fun p => (.arr p.1, p.2))
    | '{' :: rest =>
      match skipWs rest with
      | '}' :: r => some (.obj .nil, r)
      | other => (parseMembers fuel other).map (fun p => (.obj p.1, p.2))
    | other => (parseIntToken other).map (fun p => (.num p.1, p.2))
/-- Parse a nonempty comma-separated element list and the closing `]`. -/
def parseElems : Nat → List Char → Option (JsonList × List Char)
  | 0, _ => none
  | fuel + 1, input =>
    match parseVal fuel input with
    | none => none
    | some (v, rest) =>
      match skipWs rest with
      | ',' :: r => (parseElems fuel r).map (fun p => (.cons v p.1, p.2))
      | ']' :: r => some (.cons v .nil, r)
      | _ => none
/-- Parse a nonempty object member list and the closing `}`. -/
def parseMembers : Nat → List Char → Option (JsonObj × List Char)
  | 0, _ => none
  | fuel + 1, input =>
    match skipWs input with
    | '"' :: rest =>
      match parseStringBody rest.length rest with
      | none => none
      | some (k, rest2) =>
        match skipWs rest2 with
        | ':' :: rest3 =>
          match parseVal fuel rest3 with
          | none => none
          | some (v, rest4) =>
            match skipWs rest4 with
            | ',' :: r => (parseMembers fuel r).map (fun p => (.cons ⟨k⟩ v p.1, p.2))
            | '}' :: r => some (.cons ⟨k⟩ v .nil, r)
            | _ => none
        | _ => none
    | _ => none
end

mutual
/-- Number of nodes of a JSON value; a lower bound for the parser fuel. -/
def sizeJ : Json → Nat
  | .null => 1
  | .bool _ => 1
  | .num _ => 1
  | .str _ => 1
  | .arr es => 1 + sizeL es
  | .obj ms => 1 + sizeO ms
def sizeL : JsonList → Nat
  | .nil => 0
  | .cons v tl => 1 + sizeJ v + sizeL tl
def sizeO : JsonObj → Nat
  | .nil => 0
  | .cons _ v tl => 1 + sizeJ v + sizeO tl
end

/-! ### Round trip of the JSON text form -/

theorem skipWs_cons_of_not_ws {c : Char} {l : List Char} (h : isJsonWs c = false) :
    skipWs (c :: l) = c :: l := by
  rw [skipWs, h]
  simp

theorem hexVal_hexDigit {n : Nat} (h : n < 16) : hexVal (hexDigit n) = some n := by
  interval_cases n <;> decide

theorem parseStringBody_backslash (fuel : Nat) (rest : List Char) :
    parseStringBody (fuel + 1) ('\\' :: rest) =
      match unescapeChar rest with
      | some (e, r) => (parseStringBody fuel r).map (fun p => (e :: p.1, p.2))
      | none => none := by
  rw [parseStringBody]
  rw [if_neg (by decide : ('\\' : Char) ≠ '"'), if_pos rfl]

theorem parseStringBody_plain {c : Char} (hq : c ≠ '"') (hb : c ≠ '\\')
    (fuel : Nat) (rest : List Char) :
    parseStringBody (fuel + 1) (c :: rest) =
      (parseStringBody fuel rest).map (fun p => (c :: p.1, p.2)) := by
  rw [parseStringBody, if_neg hq, if_neg hb]

set_option maxHeartbeats 1000000 in
theorem parseStringBody_escapeChar (c : Char) (fuel : Nat) (tail : List Char) :
    parseStringBody (fuel + 1) (escapeChar c ++ tail) =
      (parseStringBody fuel tail).map (fun p => (c :: p.1, p.2)) := by
  unfold escapeChar
  split_ifs with h1 h2 h3 h4 h5 h6 h7 h8
  · subst h1; rw [List.cons_append, List.cons_append, List.nil_append,
      parseStringBody_backslash]; rfl
  · subst h2; rw [List.cons_append, List.cons_append, List.nil_append,
      parseStringBody_backslash]; rfl
  · subst h3; rw [List.cons_append, List.cons_append, List.nil_append,
      parseStringBody_backslash]; rfl
  · subst h4; rw [List.cons_append, List.cons_append, List.nil_append,
      parseStringBody_backslash]; rfl
  · subst h5; rw [List.cons_append, List.cons_append, List.nil_append,
      parseStringBody_backslash]; rfl
  · subst h6; rw [List.cons_append, List.cons_append, List.nil_append,
      parseStringBody_backslash]; rfl
  · subst h7; rw [List.cons_append, List.cons_append, List.nil_append,
      parseStringBody_backslash]; rfl
  · have hlo : c.toNat % 16 < 16 := Nat.mod_lt _ (by omega)
    have hhi : c.toNat / 16 < 16 := by omega
    simp only [List.cons_append, List.nil_append]
    rw [parseStringBody_backslash]
    have h0 : hexVal '0' = some 0 := by decide
    simp only [unescapeChar, hexVal_hexDigit hlo, hexVal_hexDigit hhi, h0]
    have hc : ((0 * 16 + 0) * 16 + c.toNat / 16) * 16 + c.toNat % 16 = c.toNat := by omega
    rw [hc, Char.ofNat_toNat]
  · rw [List.cons_append, List.nil_append, parseStringBody_plain h1 h2]

theorem parseStringBody_roundtrip (l : List Char) (tail : List Char) :
    ∀ fuel : Nat, l.length < fuel →
      parseStringBody fuel (l.flatMap escapeChar ++ ('"' :: tail)) = some (l, tail) := by
  induction l with
  | nil =>
    intro fuel hf
    obtain ⟨f, rfl⟩ : ∃ f, fuel = f + 1 := ⟨fuel - 1, by omega⟩
    rw [List.flatMap_nil, List.nil_append, parseStringBody]
    simp
  | cons c cs ih =>
    intro fuel hf
    obtain ⟨f, rfl⟩ : ∃ f, fuel = f + 1 := ⟨fuel - 1, by omega⟩
    rw [List.flatMap_cons, List.append_assoc, parseStringBody_escapeChar,
      ih f (by simp at hf; omega)]
    rfl

theorem escapeChar_length_pos (c : Char) : 1 ≤ (escapeChar c).length := by
  unfold escapeChar
  split_ifs <;> simp

theorem flatMap_escapeChar_length (l : List Char) :
    l.length ≤ (l.flatMap escapeChar).length := by
  induction l with
  | nil => simp
  | cons c cs ih =>
    rw [List.flatMap_cons, List.length_append, List.length_cons]
    have := escapeChar_length_pos c
    omega

/-- The string-body parse as `parseVal` invokes it (fuel = input length). -/
theorem parseStringBody_full (l : List Char) (tail : List Char) :
    parseStringBody (l.flatMap escapeChar ++ ('"' :: tail)).length
      (l.flatMap escapeChar ++ ('"' :: tail)) = some (l, tail) := by
  refine parseStringBody_roundtrip l tail _ ?_
  rw [List.length_append, List.length_cons]
  have := flatMap_escapeChar_length l
  omega

/-- Does the input not begin with a decimal digit? -/
def headNotDigit : List Char → Bool
  | [] => true
  | c :: _ => !(isDigitChar c)

theorem takeDigits_of_head_not_digit {l : List Char} (h : headNotDigit l = true) :
    takeDigits l = ([], l) := by
  cases l with
  | nil => rfl
  | cons c rest =>
    have : isDigitChar c = false := by
      simp [headNotDigit] at h
      exact h
    rw [takeDigits, this]
    simp

theorem takeDigits_append_digits (ds rest : List Char)
    (hds : ∀ c ∈ ds, isDigitChar c = true) (hrest : headNotDigit rest = true) :
    takeDigits (ds ++ rest) = (ds, rest) := by
  induction ds with
  | nil => simpa using takeDigits_of_head_not_digit hrest
  | cons c cs ih =>
    rw [List.cons_append, takeDigits, hds c (by simp)]
    simp only [if_true]
    rw [ih (fun x hx => hds x (by simp [hx]))]

theorem parseIntToken_roundtrip (n : Int) (rest : List Char)
    (h : headNotDigit rest = true) :
    parseIntToken (intToDigits n ++ rest) = some (n, rest) := by
  unfold intToDigits
  split_ifs with hneg
  · rw [List.cons_append, parseIntToken,
      takeDigits_append_digits _ _ (natToDigits_all_digits _) h]
    cases hds : natToDigits n.natAbs with
    | nil => exact absurd hds (natToDigits_ne_nil _)
    | cons d ds =>
      have hval : digitsVal (d :: ds) = n.natAbs := by
        rw [← hds, digitsVal_natToDigits]
      have hcast : (-(digitsVal (d :: ds) : Int)) = n := by
        rw [hval]; omega
      simp only [hcast]
  · cases hds : natToDigits n.natAbs with
    | nil => exact absurd hds (natToDigits_ne_nil _)
    | cons d ds =>
      have hd : isDigitChar d = true :=
        natToDigits_all_digits n.natAbs d (by rw [hds]; simp)
      have hdm : d ≠ '-' := by
        intro hh
        subst hh
        simp [isDigitChar] at hd
      have hT : takeDigits (d :: ds ++ rest) = (d :: ds, rest) := by
        refine takeDigits_append_digits (d :: ds) rest ?_ h
        rw [← hds]
        exact natToDigits_all_digits _
      rw [parseIntToken.eq_def]
      split
      · rename_i r heq
        injection heq with hh1 hh2
        exact absurd hh1 hdm
      · rw [hT]
        have hval : digitsVal (d :: ds) = n.natAbs := by
          rw [← hds, digitsVal_natToDigits]
        have hcast : ((digitsVal (d :: ds) : Int)) = n := by
          rw [hval]; omega
        simp only [hcast]

/-- Characters a JSON value's text can begin with. -/
def jsonStartChar (c : Char) : Bool :=
  c = 'n' || c = 't' || c = 'f' || c = '"' || c = '[' || c = '{' || c = '-' || isDigitChar c

theorem stringifyJson_head (v : Json) :
    ∃ c cs, stringifyJson v = c :: cs ∧ jsonStartChar c = true := by
  cases v with
  | null => exact ⟨'n', _, rfl, by decide⟩
  | bool b =>
    cases b with
    | false => exact ⟨'f', _, rfl, by decide⟩
    | true => exact ⟨'t', _, rfl, by decide⟩
  | num n =>
    show ∃ c cs, intToDigits n = c :: cs ∧ _
    unfold intToDigits
    split_ifs with hneg
    · exact ⟨'-', _, rfl, by decide⟩
    · cases hds : natToDigits n.natAbs with
      | nil => exact absurd hds (natToDigits_ne_nil _)
      | cons d ds =>
        refine ⟨d, ds, rfl, ?_⟩
        have hd : isDigitChar d = true :=
          natToDigits_all_digits n.natAbs d (by rw [hds]; simp)
        simp [jsonStartChar, hd]
  | str s => exact ⟨'"', _, rfl, by decide⟩
  | arr es => exact ⟨'[', _, rfl, by decide⟩
  | obj ms => exact ⟨'{', _, rfl, by decide⟩

theorem isDigitChar_not_ws {c : Char} (h : isDigitChar c = true) :
    isJsonWs c = false := by
  simp only [isDigitChar, Bool.and_eq_true, decide_eq_true_eq] at h
  have h1 : c ≠ ' ' := by intro hh; subst hh; exact absurd h (by decide)
  have h2 : c ≠ '\t' := by intro hh; subst hh; exact absurd h (by decide)
  have h3 : c ≠ '\n' := by intro hh; subst hh; exact absurd h (by decide)
  have h4 : c ≠ '\r' := by intro hh; subst hh; exact absurd h (by decide)
  simp [isJsonWs, h1, h2, h3, h4]

theorem jsonStartChar_not_ws {c : Char} (h : jsonStartChar c = true) :
    isJsonWs c = false := by
  simp only [jsonStartChar, Bool.or_eq_true, decide_eq_true_eq] at h
  rcases h with ((((((h | h) | h) | h) | h) | h) | h) | h
  all_goals first
    | (subst h; decide)
    | exact isDigitChar_not_ws h

theorem jsonStartChar_ne_rbrack {c : Char} (h : jsonStartChar c = true) : c ≠ ']' := by
  intro hh
  subst hh
  exact absurd h (by decide)

theorem intToDigits_head (n : Int) :
    ∃ c cs, intToDigits n = c :: cs ∧ (c = '-' ∨ isDigitChar c = true) := by
  unfold intToDigits
  split_ifs with hneg
  · exact ⟨'-', _, rfl, Or.inl rfl⟩
  · cases hds : natToDigits n.natAbs with
    | nil => exact absurd hds (natToDigits_ne_nil _)
    | cons d ds =>
      refine ⟨d, ds, rfl, Or.inr ?_⟩
      exact natToDigits_all_digits n.natAbs d (by rw [hds]; simp)

theorem stringifyElems_head (v : Json) (tl : JsonList) :
    ∃ c cs, stringifyElems (.cons v tl) = c :: cs ∧ jsonStartChar c = true := by
  obtain ⟨c, cs, hc, hs⟩ := stringifyJson_head v
  cases tl with
  | nil =>
    refine ⟨c, cs, ?_, hs⟩
    show stringifyJson v = c :: cs
    exact hc
  | cons v2 tl2 =>
    refine ⟨c, cs ++ (',' :: stringifyElems (.cons v2 tl2)), ?_, hs⟩
    show stringifyJson v ++ (',' :: stringifyElems (.cons v2 tl2)) = _
    rw [hc]
    rfl

theorem headNotDigit_cons (c : Char) (l : List Char) :
    headNotDigit (c :: l) = !(isDigitChar c) := rfl

theorem sizeJ_pos (v : Json) : 1 ≤ sizeJ v := by
  cases v <;> simp [sizeJ] <;> omega

theorem sizeL_pos {es : JsonList} (h : es ≠ .nil) : 1 ≤ sizeL es := by
  cases es with
  | nil => exact absurd rfl h
  | cons v tl => simp [sizeL]; omega

theorem sizeO_pos {ms : JsonObj} (h : ms ≠ .nil) : 1 ≤ sizeO ms := by
  cases ms with
  | nil => exact absurd rfl h
  | cons k v tl => simp [sizeO]; omega

/-- Full round trip of the JSON text form, by induction on the parser
fuel: parsing the printed form of any value, followed by any text that
does not begin with a digit, succeeds and returns the value. -/
theorem parse_stringify_all : ∀ fuel : Nat,
    (∀ (v : Json) (rest : List Char), sizeJ v ≤ fuel → headNotDigit rest = true →
       parseVal fuel (stringifyJson v ++ rest) = some (v, rest)) ∧
    (∀ (es : JsonList) (rest : List Char), es ≠ .nil → sizeL es ≤ fuel →
       parseElems fuel (stringifyElems es ++ (']' :: rest)) = some (es, rest)) ∧
    (∀ (ms : JsonObj) (rest : List Char), ms ≠ .nil → sizeO ms ≤ fuel →
       parseMembers fuel (stringifyMembers ms ++ ('}' :: rest)) = some (ms, rest)) := by
  intro fuel
  induction fuel with
  | zero =>
    refine ⟨?_, ?_, ?_⟩
    · intro v rest hsize hrest
      exact absurd hsize (by have := sizeJ_pos v; omega)
    · intro es rest hne hsize
      exact absurd hsize (by have := sizeL_pos hne; omega)
    · intro ms rest hne hsize
      exact absurd hsize (by have := sizeO_pos hne; omega)
  | succ fuel ih =>
    obtain ⟨ih1, ih2, ih3⟩ := ih
    refine ⟨?_, ?_, ?_⟩
    · intro v rest hsize hrest
      cases v with
      | null =>
        show parseVal (fuel + 1) (['n', 'u', 'l', 'l'] ++ rest) = _
        simp only [parseVal, List.cons_append, List.nil_append]
        rw [skipWs_cons_of_not_ws (by decide)]
        rfl
      | bool b =>
        cases b with
        | false =>
          show parseVal (fuel + 1) (['f', 'a', 'l', 's', 'e'] ++ rest) = _
          simp only [parseVal, List.cons_append, List.nil_append]
          rw [skipWs_cons_of_not_ws (by decide)]
          rfl
        | true =>
          show parseVal (fuel + 1) (['t', 'r', 'u', 'e'] ++ rest) = _
          simp only [parseVal, List.cons_append, List.nil_append]
          rw [skipWs_cons_of_not_ws (by decide)]
          rfl
      | num n =>
        show parseVal (fuel + 1) (intToDigits n ++ rest) = _
        obtain ⟨c, cs, hc, hstart⟩ := intToDigits_head n
        have hws : isJsonWs c = false := by
          rcases hstart with h | h
          · subst h; decide
          · exact isDigitChar_not_ws h
        have hne : ∀ x : Char, x ∈ (['n', 't', 'f', '"', '[', '{'] : List Char) → c ≠ x := by
          intro x hx hcx
          subst hcx
          rcases hstart with h | h
          · fin_cases hx <;> simp_all
          · fin_cases hx <;> simp [isDigitChar] at h
        rw [hc]
        simp only [parseVal, List.cons_append]
        rw [skipWs_cons_of_not_ws hws]
        split
        · rename_i heq; injection heq with e1 _; exact absurd e1 (hne _ (by simp))
        · rename_i heq; injection heq with e1 _; exact absurd e1 (hne _ (by simp))
        · rename_i heq; injection heq with e1 _; exact absurd e1 (hne _ (by simp))
        · rename_i heq; injection heq with e1 _; exact absurd e1 (hne _ (by simp))
        · rename_i heq; injection heq with e1 _; exact absurd e1 (hne _ (by simp))
        · rename_i heq; injection heq with e1 _; exact absurd e1 (hne _ (by simp))
        · rename_i hmatch
          have hback : c :: (cs ++ rest) = intToDigits n ++ rest := by
            rw [hc]; rfl
          rw [hback, parseIntToken_roundtrip n rest hrest]
          rfl
      | str s =>
        have hshape : stringifyJson (.str s) ++ rest
            = '"' :: (s.data.flatMap escapeChar ++ ('"' :: rest)) := by
          show ('"' :: (s.data.flatMap escapeChar ++ ['"'])) ++ rest = _
          simp
        rw [hshape]
        simp only [parseVal]
        rw [skipWs_cons_of_not_ws (by decide)]
        show (parseStringBody (s.data.flatMap escapeChar ++ ('"' :: rest)).length
            (s.data.flatMap escapeChar ++ ('"' :: rest))).map
            (fun p => (Json.str ⟨p.1⟩, p.2)) = some (Json.str s, rest)
        rw [parseStringBody_full]
        rfl
      | arr es =>
        cases es with
        | nil =>
          show parseVal (fuel + 1) (('[' :: ([] ++ [']'])) ++ rest) = _
          simp only [List.nil_append, List.cons_append]
          simp only [parseVal]
          rw [skipWs_cons_of_not_ws (by decide)]
          show (match skipWs (']' :: rest) with
            | ']' :: r => some (Json.arr .nil, r)
            | other => (parseElems fuel other).map (fun (p : JsonList × List Char) => (Json.arr p.1, p.2))) = _
          rw [skipWs_cons_of_not_ws (by decide)]
          rfl
        | cons v tl =>
          have hshape : stringifyJson (.arr (.cons v tl)) ++ rest
              = '[' :: (stringifyElems (.cons v tl) ++ (']' :: rest)) := by
            show ('[' :: (stringifyElems (.cons v tl) ++ [']'])) ++ rest = _
            simp
          rw [hshape]
          simp only [parseVal]
          rw [skipWs_cons_of_not_ws (by decide)]
          show (match skipWs (stringifyElems (.cons v tl) ++ (']' :: rest)) with
            | ']' :: r => some (Json.arr .nil, r)
            | other => (parseElems fuel other).map (fun (p : JsonList × List Char) => (Json.arr p.1, p.2))) = _
          obtain ⟨c, cs, hc, hstart⟩ := stringifyElems_head v tl
          rw [hc, List.cons_append, skipWs_cons_of_not_ws (jsonStartChar_not_ws hstart)]
          split
          · rename_i heq
            injection heq with e1 _
            exact absurd e1 (jsonStartChar_ne_rbrack hstart)
          · have hback : c :: (cs ++ (']' :: rest))
                = stringifyElems (.cons v tl) ++ (']' :: rest) := by
              rw [hc]
              rfl
            rw [hback, ih2 (.cons v tl) rest (by simp)
              (by simp only [sizeJ] at hsize; omega)]
            rfl
      | obj ms =>
        cases ms with
        | nil =>
          show parseVal (fuel + 1) (('{' :: ([] ++ ['}'])) ++ rest) = _
          simp only [List.nil_append, List.cons_append]
          simp only [parseVal]
          rw [skipWs_cons_of_not_ws (by decide)]
          show (match skipWs ('}' :: rest) with
            | '}' :: r => some (Json.obj .nil, r)
            | other => (parseMembers fuel other).map (fun (p : JsonObj × List Char) => (Json.obj p.1, p.2))) = _
          rw [skipWs_cons_of_not_ws (by decide)]
          rfl
        | cons k v tl =>
          have hshape : stringifyJson (.obj (.cons k v tl)) ++ rest
              = '{' :: (stringifyMembers (.cons k v tl) ++ ('}' :: rest)) := by
            show ('{' :: (stringifyMembers (.cons k v tl) ++ ['}'])) ++ rest = _
            simp
          rw [hshape]
          simp only [parseVal]
          rw [skipWs_cons_of_not_ws (by decide)]
          show (match skipWs (stringifyMembers (.cons k v tl) ++ ('}' :: rest)) with
            | '}' :: r => some (Json.obj .nil, r)
            | other => (parseMembers fuel other).map (fun (p : JsonObj × List Char) => (Json.obj p.1, p.2))) = _
          have hkhead : ∃ cs2, stringifyMembers (.cons k v tl) = '"' :: cs2 := by
            cases tl with
            | nil => exact ⟨_, rfl⟩
            | cons k2 v2 tl2 => exact ⟨_, rfl⟩
          obtain ⟨cs2, hc⟩ := hkhead
          rw [hc, List.cons_append, skipWs_cons_of_not_ws (by decide)]
          split
          · rename_i heq
            injection heq with e1 _
            exact absurd e1 (by decide)
          · have hback : '"' :: (cs2 ++ ('}' :: rest))
                = stringifyMembers (.cons k v tl) ++ ('}' :: rest) := by
              rw [hc]
              rfl
            rw [hback, ih3 (.cons k v tl) rest (by simp)
              (by simp only [sizeJ] at hsize; omega)]
            rfl
    · intro es rest hne hsize
      cases es with
      | nil => exact absurd rfl hne
      | cons v tl =>
        cases tl with
        | nil =>
          show parseElems (fuel + 1) (stringifyJson v ++ (']' :: rest)) = _
          simp only [parseElems]
          rw [ih1 v (']' :: rest) (by simp only [sizeL] at hsize; omega) (by rw [headNotDigit_cons]; decide)]
          show (match skipWs (']' :: rest) with
            | ',' :: r => (parseElems fuel r).map (fun (p : JsonList × List Char) => (JsonList.cons v p.1, p.2))
            | ']' :: r => some (JsonList.cons v .nil, r)
            | _ => none) = _
          rw [skipWs_cons_of_not_ws (by decide)]
          rfl
        | cons v2 tl2 =>
          have hshape : stringifyElems (.cons v (.cons v2 tl2)) ++ (']' :: rest)
              = stringifyJson v ++ (',' :: (stringifyElems (.cons v2 tl2) ++ (']' :: rest))) := by
            show (stringifyJson v ++ (',' :: stringifyElems (.cons v2 tl2))) ++ (']' :: rest) = _
            simp
          rw [hshape]
          simp only [parseElems]
          rw [ih1 v _ (by simp only [sizeL] at hsize; omega) (by rw [headNotDigit_cons]; decide)]
          show (match skipWs (',' :: (stringifyElems (.cons v2 tl2) ++ (']' :: rest))) with
            | ',' :: r => (parseElems fuel r).map (fun (p : JsonList × List Char) => (JsonList.cons v p.1, p.2))
            | ']' :: r => some (JsonList.cons v .nil, r)
            | _ => none) = _
          rw [skipWs_cons_of_not_ws (by decide)]
          show (parseElems fuel (stringifyElems (.cons v2 tl2) ++ (']' :: rest))).map
            (fun p => (JsonList.cons v p.1, p.2)) = _
          rw [ih2 (.cons v2 tl2) rest (by simp)
            (by have := sizeJ_pos v; simp only [sizeL] at hsize ⊢; omega)]
          rfl
    · intro ms rest hne hsize
      cases ms with
      | nil => exact absurd rfl hne
      | cons k v tl =>
        cases tl with
        | nil =>
          have hshape : stringifyMembers (.cons k v .nil) ++ ('}' :: rest)
              = '"' :: (k.data.flatMap escapeChar
                  ++ ('"' :: (':' :: (stringifyJson v ++ ('}' :: rest))))) := by
            show (stringifyString k ++ (':' :: stringifyJson v)) ++ ('}' :: rest) = _
            show (('"' :: (k.data.flatMap escapeChar ++ ['"'])) ++ (':' :: stringifyJson v))
                ++ ('}' :: rest) = _
            simp
          rw [hshape]
          simp only [parseMembers]
          rw [skipWs_cons_of_not_ws (by decide)]
          simp only []
          rw [parseStringBody_full]
          simp only []
          rw [skipWs_cons_of_not_ws (by decide)]
          simp only []
          rw [ih1 v _ (by simp only [sizeO] at hsize; omega) (by rw [headNotDigit_cons]; decide)]
          simp only []
          rw [skipWs_cons_of_not_ws (by decide)]
          rfl
        | cons k2 v2 tl2 =>
          have hshape : stringifyMembers (.cons k v (.cons k2 v2 tl2)) ++ ('}' :: rest)
              = '"' :: (k.data.flatMap escapeChar
                  ++ ('"' :: (':' :: (stringifyJson v
                      ++ (',' :: (stringifyMembers (.cons k2 v2 tl2) ++ ('}' :: rest))))))) := by
            show (stringifyString k ++ (':' :: (stringifyJson v
                ++ (',' :: stringifyMembers (.cons k2 v2 tl2))))) ++ ('}' :: rest) = _
            show (('"' :: (k.data.flatMap escapeChar ++ ['"'])) ++ (':' :: (stringifyJson v
                ++ (',' :: stringifyMembers (.cons k2 v2 tl2))))) ++ ('}' :: rest) = _
            simp
          rw [hshape]
          simp only [parseMembers]
          rw [skipWs_cons_of_not_ws (by decide)]
          simp only []
          rw [parseStringBody_full]
          simp only []
          rw [skipWs_cons_of_not_ws (by decide)]
          simp only []
          rw [ih1 v _ (by simp only [sizeO] at hsize; omega) (by rw [headNotDigit_cons]; decide)]
          simp only []
          rw [skipWs_cons_of_not_ws (by decide)]
          simp only []
          rw [ih3 (.cons k2 v2 tl2) rest (by simp)
            (by have := sizeJ_pos v; simp only [sizeO] at hsize ⊢; omega)]
          rfl

theorem intToDigits_ne_nil (n : Int) : intToDigits n ≠ [] := by
  unfold intToDigits
  split_ifs
  · simp
  · exact natToDigits_ne_nil _

mutual
theorem sizeJ_le_length : ∀ v : Json, sizeJ v ≤ (stringifyJson v).length
  | .null => by decide
  | .bool true => by decide
  | .bool false => by decide
  | .num n => by
    show 1 ≤ (intToDigits n).length
    have h := intToDigits_ne_nil n
    cases hds : intToDigits n with
    | nil => exact absurd hds h
    | cons d ds => simp
  | .str s => by
    show 1 ≤ (stringifyString s).length
    simp [stringifyString]
  | .arr es => by
    have h := sizeL_le_length es
    show 1 + sizeL es ≤ ('[' :: (stringifyElems es ++ [']'])).length
    simp only [List.length_cons, List.length_append]
    omega
  | .obj ms => by
    have h := sizeO_le_length ms
    show 1 + sizeO ms ≤ ('{' :: (stringifyMembers ms ++ ['}'])).length
    simp only [List.length_cons, List.length_append]
    omega
theorem sizeL_le_length : ∀ es : JsonList, sizeL es ≤ (stringifyElems es).length + 1
  | .nil => by simp [sizeL]
  | .cons v .nil => by
    have h := sizeJ_le_length v
    show 1 + sizeJ v + sizeL .nil ≤ (stringifyJson v).length + 1
    simp only [sizeL]
    omega
  | .cons v (.cons v2 tl2) => by
    have h1 := sizeJ_le_length v
    have h2 := sizeL_le_length (.cons v2 tl2)
    show 1 + sizeJ v + sizeL (.cons v2 tl2)
        ≤ (stringifyJson v ++ (',' :: stringifyElems (.cons v2 tl2))).length + 1
    simp only [List.length_append, List.length_cons]
    omega
theorem sizeO_le_length : ∀ ms : JsonObj, sizeO ms ≤ (stringifyMembers ms).length + 1
  | .nil => by simp [sizeO]
  | .cons k v .nil => by
    have h := sizeJ_le_length v
    show 1 + sizeJ v + sizeO .nil
        ≤ (stringifyString k ++ (':' :: stringifyJson v)).length + 1
    simp only [sizeO, List.length_append, List.length_cons]
    omega
  | .cons k v (.cons k2 v2 tl2) => by
    have h1 := sizeJ_le_length v
    have h2 := sizeO_le_length (.cons k2 v2 tl2)
    show 1 + sizeJ v + sizeO (.cons k2 v2 tl2)
        ≤ (stringifyString k ++ (':' :: (stringifyJson v
            ++ (',' :: stringifyMembers (.cons k2 v2 tl2))))).length + 1
    simp only [List.length_append, List.length_cons]
    omega
end

/-- Model of `JSON.parse` on a whole string: parse one value, allow only
trailing whitespace, otherwise fail (throw). -/
def jsonParse (s : String) : Option Json :=
  match parseVal (s.data.length + 1) s.data with
  | some (v, rest) => if skipWs rest = [] then some v else none
  | none => none

theorem jsonParse_stringify (v : Json) : jsonParse ⟨stringifyJson v⟩ = some v := by
  have h := (parse_stringify_all ((stringifyJson v).length + 1)).1 v []
    (by have := sizeJ_le_length v; omega) rfl
  rw [List.append_nil] at h
  unfold jsonParse
  show (match parseVal ((stringifyJson v).length + 1) (stringifyJson v) with
    | some (w, rest) => if skipWs rest = [] then some w else none
    | none => none) = some v
  rw [h]
  rfl

/-! ## Data model (mirrors the TS types of the plugin)

`FieldType` is the host SDK's integer enum; only the codes the plugin
names are needed. -/

def FieldType_SingleLink : Nat := 18
def FieldType_Lookup : Nat := 19
def FieldType_Formula : Nat := 20
def FieldType_DuplexLink : Nat := 21
def FieldType_CreatedTime : Nat := 1001
def FieldType_ModifiedTime : Nat := 1002
def FieldType_CreatedUser : Nat := 1003
def FieldType_ModifiedUser : Nat := 1004
def FieldType_AutoNumber : Nat := 1005
def FieldType_Barcode : Nat := 99001

/-- `BLOCKED_ROLLBACK_FIELD_TYPES` (an array in the source; membership is
what is used). -/
def BLOCKED_ROLLBACK_FIELD_TYPES : List Nat :=
  [FieldType_CreatedTime, FieldType_ModifiedTime, FieldType_CreatedUser,
   FieldType_ModifiedUser, FieldType_AutoNumber]

/-- `NON_PORTABLE_ROLLBACK_FIELD_TYPES` (a JS `Set` in the source;
membership is what is used). -/
def NON_PORTABLE_ROLLBACK_FIELD_TYPES : List Nat :=
  [FieldType_Lookup, FieldType_SingleLink, FieldType_DuplexLink,
   FieldType_Formula, FieldType_Barcode]

/-- `IFieldMeta` of the host SDK (the fields the plugin reads).  `name`
is a non-nullable string in the SDK, so the source's `?? fallback`
accesses on it never fire and are not modelled. -/
structure IFieldMeta where
  id : String
  name : String
  type : Nat
  property : Option Json
  isPrimary : Bool

/-- A table as the plugin sees it: its meta plus its field list
(`TableBundle` flattened; enumeration order is list order). -/
structure Table where
  id : String
  name : String
  fields : List IFieldMeta

/-- `SnapshotField` of the source. -/
structure SnapshotField where
  id : String
  name : String
  type : Nat
  property : Option Json

/-- `SnapshotTable` of the source. -/
structure SnapshotTable where
  tableId : String
  tableName : String
  fields : List SnapshotField

/-- `Snapshot` of the source. -/
structure Snapshot where
  label : String
  timestamp : String
  tables : List SnapshotTable

/-! ## Snapshot persistence (`persistSnapshot` / `loadPersistedSnapshot`)

The persisted JSON layout is exactly the object-literal layout of
`captureSnapshot` / the `Snapshot` type: key order is the object-literal
insertion order, and an absent `property` is omitted by
`JSON.stringify`. -/

def JsonList.ofList : List Json → JsonList
  | [] => .nil
  | v :: rest => .cons v (ofList rest)

def JsonList.toList : JsonList → List Json
  | .nil => []
  | .cons v tl => v :: toList tl

def JsonObj.lookup : JsonObj → String → Option Json
  | .nil, _ => none
  | .cons k v tl, key => if k = key then some v else tl.lookup key

/-- The JSON value `JSON.stringify` sees for a snapshot field. -/
def snapshotFieldToJson (f : SnapshotField) : Json :=
  .obj (.cons "id" (.str f.id) (.cons "name" (.str f.name)
    (.cons "type" (.num (f.type : Int))
      (match f.property with
       | none => .nil
       | some p => .cons "property" p .nil))))

/-- The JSON value `JSON.stringify` sees for a snapshot table. -/
def snapshotTableToJson (t : SnapshotTable) : Json :=
  .obj (.cons "tableId" (.str t.tableId) (.cons "tableName" (.str t.tableName)
    (.cons "fields" (.arr (JsonList.ofList (t.fields.map snapshotFieldToJson))) .nil)))

/-- The JSON value `JSON.stringify` sees for a snapshot. -/
def snapshotToJson (s : Snapshot) : Json :=
  .obj (.cons "label" (.str s.label) (.cons "timestamp" (.str s.timestamp)
    (.cons "tables" (.arr (JsonList.ofList (s.tables.map snapshotTableToJson))) .nil)))

def decodeList (dec : Json → Option α) : List Json → Option (List α)
  | [] => some []
  | v :: rest =>
    match dec v with
    | none => none
    | some x => (decodeList dec rest).map (fun xs => x :: xs)

/-- Reading a parsed JSON value back at the `SnapshotField` shape (the
source's unchecked `as Snapshot` cast, made explicit). -/
def jsonToSnapshotField (j : Json) : Option SnapshotField :=
  match j with
  | .obj ms =>
    match ms.lookup "id", ms.lookup "name", ms.lookup "type" with
    | some (.str fid), some (.str nm), some (.num ty) =>
      if 0 ≤ ty then some ⟨fid, nm, ty.toNat, ms.lookup "property"⟩ else none
    | _, _, _ => none
  | _ => none

/-- Reading a parsed JSON value back at the `SnapshotTable` shape. -/
def jsonToSnapshotTable (j : Json) : Option SnapshotTable :=
  match j with
  | .obj ms =>
    match ms.lookup "tableId", ms.lookup "tableName", ms.lookup "fields" with
    | some (.str tid), some (.str tname), some (.arr fs) =>
      (decodeList jsonToSnapshotField fs.toList).map (fun flds => ⟨tid, tname, flds⟩)
    | _, _, _ => none
  | _ => none

/-- Reading a parsed JSON value back at the `Snapshot` shape. -/
def jsonToSnapshot (j : Json) : Option Snapshot :=
  match j with
  | .obj ms =>
    match ms.lookup "label", ms.lookup "timestamp", ms.lookup "tables" with
    | some (.str lb), some (.str ts), some (.arr tbls) =>
      (decodeList jsonToSnapshotTable tbls.toList).map (fun xs => ⟨lb, ts, xs⟩)
    | _, _, _ => none
  | _ => none

theorem JsonList.toList_ofList (l : List Json) : (JsonList.ofList l).toList = l := by
  induction l with
  | nil => rfl
  | cons v rest ih => simp [JsonList.ofList, JsonList.toList, ih]

theorem decodeList_map {α : Type} (dec : Json → Option α) (enc : α → Json)
    (l : List α) (h : ∀ x ∈ l, dec (enc x) = some x) :
    decodeList dec (l.map enc) = some l := by
  induction l with
  | nil => rfl
  | cons x rest ih =>
    rw [List.map_cons, decodeList, h x (by simp), ih (fun y hy => h y (by simp [hy]))]
    rfl

theorem jsonToSnapshotField_toJson (f : SnapshotField) :
    jsonToSnapshotField (snapshotFieldToJson f) = some f := by
  cases f with
  | mk fid nm ty prop =>
    cases prop <;>
      simp [jsonToSnapshotField, snapshotFieldToJson, JsonObj.lookup]

theorem jsonToSnapshotTable_toJson (t : SnapshotTable) :
    jsonToSnapshotTable (snapshotTableToJson t) = some t := by
  cases t with
  | mk tid tname flds =>
    simp [jsonToSnapshotTable, snapshotTableToJson, JsonObj.lookup,
      JsonList.toList_ofList,
      decodeList_map jsonToSnapshotField snapshotFieldToJson flds
        (fun x _ => jsonToSnapshotField_toJson x)]

theorem jsonToSnapshot_toJson (s : Snapshot) :
    jsonToSnapshot (snapshotToJson s) = some s := by
  cases s with
  | mk lb ts tbls =>
    simp [jsonToSnapshot, snapshotToJson, JsonObj.lookup,
      JsonList.toList_ofList,
      decodeList_map jsonToSnapshotTable snapshotTableToJson tbls
        (fun x _ => jsonToSnapshotTable_toJson x)]

/-- `persistSnapshot`: `null` clears the cache (`removeItem`), otherwise
the cache holds `JSON.stringify(snapshot)`.  The returned value is the
local-storage cell content. -/
def persistSnapshot (snapshot : Option Snapshot) : Option String :=
  match snapshot with
  | none => none
  | some snap => some ⟨stringifyJson (snapshotToJson snap)⟩

/-- `loadPersistedSnapshot`: read the local-storage cell; `!raw` treats a
missing or empty cell as no snapshot; a `JSON.parse` failure is caught and
yields `null`; the parsed value is used at the `Snapshot` shape. -/
def loadPersistedSnapshot (raw : Option String) : Option Snapshot :=
  match raw with
  | none => none
  | some s =>
    if s = "" then none
    else
      match jsonParse s with
      | none => none
      | some j => jsonToSnapshot j

/-! ## Snapshot capture (`captureSnapshot`) -/

/-- `cloneJson`: deep copy via `JSON.parse(JSON.stringify(value))`;
`undefined` stays `undefined`, and a (caught) failure falls back to the
original reference.  Over the `Json` value model the round trip is the
identity. -/
def cloneJson (v : Option Json) : Option Json :=
  match v with
  | none => none
  | some j =>
    match jsonParse ⟨stringifyJson j⟩ with
    | some j2 => some j2
    | none => some j

theorem cloneJson_eq (v : Option Json) : cloneJson v = v := by
  cases v with
  | none => rfl
  | some j => simp [cloneJson, jsonParse_stringify]

/-- `ITableMeta` of the host SDK (the fields the plugin reads). -/
structure ITableMeta where
  id : String
  name : String

/-- The table-by-table enumeration of `captureSnapshot`
(`getTableById` + `getFieldMetaList` under `Promise.all`, assembled in
meta-list order); any enumeration failure fails the whole capture. -/
def collectSnapshotTables (fieldsOf : String → Except Unit (List IFieldMeta)) :
    List ITableMeta → Except Unit (List SnapshotTable)
  | [] => .ok []
  | m :: rest =>
    match fieldsOf m.id with
    | .error e => .error e
    | .ok flds =>
      match collectSnapshotTables fieldsOf rest with
      | .error e => .error e
      | .ok tl =>
        .ok (({ tableId := m.id, tableName := m.name,
                fields := flds.map (fun f => ⟨f.id, f.name, f.type, cloneJson f.property⟩) }
              : SnapshotTable) :: tl)

/-- `captureSnapshot label`: enumerate tables then fields through the
gateway (`metaRes` is `getTableMetaList`, `fieldsOf` the per-table field
enumeration), assemble a snapshot stamped with the clock string `now`
(`new Date().toISOString()`), and replace the held snapshot; any
enumeration failure is caught, leaves the held snapshot `prev` unchanged
and returns `false`.  Result: (snapshot state after the call, returned
boolean). -/
def captureSnapshot (prev : Option Snapshot) (label now : String)
    (metaRes : Except Unit (List ITableMeta))
    (fieldsOf : String → Except Unit (List IFieldMeta)) :
    Option Snapshot × Bool :=
  match metaRes with
  | .error _ => (prev, false)
  | .ok metas =>
    match collectSnapshotTables fieldsOf metas with
    | .error _ => (prev, false)
    | .ok tbls => (some ⟨label, now, tbls⟩, true)

/-! ## Snapshot load through the bridge (`loadSnapshot`) -/

/-- What `await bridge.getData(BRIDGE_SNAPSHOT_KEY)` can yield. -/
inductive BridgeValue where
  | undef
  | jsNull
  | snap (s : Snapshot)

/-- The external store during `loadSnapshot`: missing `getData` method,
a rejected call, or a returned value. -/
inductive BridgeGet where
  | noGetData
  | throws
  | returns (v : BridgeValue)

/-- The one user-facing notice `loadSnapshot` can emit
(`已接管上一回快照，放心删也要慎重。`). -/
inductive LoadNotice where
  | tookOverSnapshot
deriving DecidableEq

/-- `loadSnapshot`: prefer the bridge value when one is returned (a stored
`null` is an explicit empty value and also wins); fall back to the local
cache when the bridge is unavailable, rejects (caught), or yields
`undefined`; an empty cache leaves the current state untouched. -/
def loadSnapshot (bridge : BridgeGet) (cacheRaw : Option String)
    (current : Option Snapshot) : Option Snapshot × List LoadNotice :=
  match bridge with
  | .returns (.snap s) => (some s, [.tookOverSnapshot])
  | .returns .jsNull => (none, [])
  | .returns .undef => loadSnapshotFallback cacheRaw current
  | .noGetData => loadSnapshotFallback cacheRaw current
  | .throws => loadSnapshotFallback cacheRaw current
where
  loadSnapshotFallback (cacheRaw : Option String) (current : Option Snapshot) :
      Option Snapshot × List LoadNotice :=
    match loadPersistedSnapshot cacheRaw with
    | some p => (some p, [.tookOverSnapshot])
    | none => (current, [])

/-! ## Deletion execution (`performDeletion`) -/

/-- A host mutation issued by `performDeletion` (in call order). -/
inductive DelAction where
  | delTable (tableId : String)
  | delField (tableId : String) (fieldId : String)
deriving DecidableEq

/-- The user-facing toasts `performDeletion` can emit. -/
inductive DelNotice where
  | retainLastTable (tableName : String)
  | indexOnlyNothingToDelete (tableName : String)
  | onlyIndexColumn (tableName : String)
  | partialFailure
  | success
deriving DecidableEq

/-- The collected per-action error strings, by shape. -/
inductive DelError where
  | tableDeleteFail (tableId : String)
  | fieldDeleteFail (fieldRef : String)
  | tableLoadFail (tableId : String)
  | lastTableFieldsFail
deriving DecidableEq

/-- `bitable.base.getTableById` over the workspace state. -/
def findTable (ws : List Table) (tid : String) : Option Table :=
  ws.find? (fun t => t.id == tid)

/-- Host `deleteTable`. -/
def removeTable (ws : List Table) (tid : String) : List Table :=
  ws.filter (fun t => t.id != tid)

/-- Host `deleteField`. -/
def removeField (ws : List Table) (tid fid : String) : List Table :=
  ws.map (fun t =>
    if t.id == tid then { t with fields := t.fields.filter (fun f => f.id != fid) }
    else t)

/-- Does the field exist (host `deleteField` succeeds exactly then)? -/
def fieldExists (ws : List Table) (tid fid : String) : Bool :=
  match findTable ws tid with
  | some t => t.fields.any (fun f => f.id == fid)
  | none => false

/-- `tableIdsToDelete.length >= currentTableIds.length`. -/
def willDeleteAllTables (currentTableIds tableIdsToDelete0 : List String) : Bool :=
  currentTableIds.length ≤ tableIdsToDelete0.length

/-- The retained table: when the selection would delete all tables and
tables exist, the last table in the current enumeration order. -/
def retainedTable (ws : List Table) (selectedTables : List String) : Option Table :=
  if willDeleteAllTables (ws.map (fun t => t.id)) selectedTables
      && decide (0 < (ws.map (fun t => t.id)).length)
  then ws.getLast? else none

/-- `currentTableList[…].name || '未知表'` (falsy `||`: the empty name
falls back). -/
def retainedDisplayName (t : Table) : String :=
  if t.name = "" then "未知表" else t.name

/-- The table ids actually deleted: the selected ids minus the retained
table's id. -/
def tableIdsToDelete (ws : List Table) (selectedTables : List String) : List String :=
  match retainedTable ws selectedTables with
  | some lt => selectedTables.filter (fun tid => tid != lt.id)
  | none => selectedTables

/-- Step 1: `deleteTable` for each id; failures (missing table) are
recorded and do not abort. -/
def execDeleteTables : List String → List Table →
    List Table × List DelAction × List DelError
  | [], ws => (ws, [], [])
  | tid :: rest, ws =>
    let ok := (findTable ws tid).isSome
    let out := execDeleteTables rest (removeTable ws tid)
    (out.1, .delTable tid :: out.2.1,
      (if ok then [] else [.tableDeleteFail tid]) ++ out.2.2)

/-- The retained-table filter of step 2: keep only selected field ids
whose meta exists and is not the index field. -/
def lastTableFieldFilter (t : Table) (fieldIds : List String) : List String :=
  fieldIds.filter (fun fid =>
    match t.fields.find? (fun f => f.id == fid) with
    | some m => !m.isPrimary
    | none => false)

/-- The inner `deleteField` loop of step 2 (error label: the field id). -/
def execDeleteFieldIds (tid : String) : List String → List Table →
    List Table × List DelAction × List DelError
  | [], ws => (ws, [], [])
  | fid :: rest, ws =>
    let ok := fieldExists ws tid fid
    let out := execDeleteFieldIds tid rest (removeField ws tid fid)
    (out.1, .delField tid fid :: out.2.1,
      (if ok then [] else [.fieldDeleteFail fid]) ++ out.2.2)

/-- Whether this entry's table is the retained last table
(`tableId === lastTableId`). -/
def isLastOf (lastT : Option Table) (tid : String) : Bool :=
  match lastT with | some lt => lt.id == tid | none => false

/-- One iteration of the step-2 loop: skip tables subsumed by a table
delete, load the table, apply the retained-table index filter, and delete
the remaining selected fields. -/
def step2Entry (lastT : Option Table) (lastName : String)
    (selectedTables : List String) (tid : String) (fids : List String)
    (ws : List Table) :
    List Table × List DelAction × List DelError × List DelNotice :=
  if selectedTables.contains tid && !(isLastOf lastT tid) then (ws, [], [], [])
  else if isLastOf lastT tid && selectedTables.contains tid then (ws, [], [], [])
  else if fids.isEmpty then (ws, [], [], [])
  else
    match findTable ws tid with
    | none => (ws, [], [.tableLoadFail tid], [])
    | some t =>
      let fieldsToDelete :=
        if isLastOf lastT tid then lastTableFieldFilter t fids else fids
      if fieldsToDelete.isEmpty then
        (ws, [], [],
          if isLastOf lastT tid then [.indexOnlyNothingToDelete lastName] else [])
      else
        let out := execDeleteFieldIds tid fieldsToDelete ws
        (out.1, out.2.1, out.2.2, [])

/-- Step 2: the loop over the `selectedFields` entries. -/
def execStep2 (lastT : Option Table) (lastName : String)
    (selectedTables : List String) :
    List (String × List String) → List Table →
    List Table × List DelAction × List DelError × List DelNotice
  | [], ws => (ws, [], [], [])
  | (tid, fids) :: rest, ws =>
    let step := step2Entry lastT lastName selectedTables tid fids ws
    let tailOut := execStep2 lastT lastName selectedTables rest step.1
    (tailOut.1, step.2.1 ++ tailOut.2.1, step.2.2.1 ++ tailOut.2.2.1,
      step.2.2.2 ++ tailOut.2.2.2)

/-- The `deleteField` loop of step 3 (error label: `name || id`). -/
def execDeleteLastFields (tid : String) : List IFieldMeta → List Table →
    List Table × List DelAction × List DelError
  | [], ws => (ws, [], [])
  | f :: rest, ws =>
    let ok := fieldExists ws tid f.id
    let out := execDeleteLastFields tid rest (removeField ws tid f.id)
    (out.1, .delField tid f.id :: out.2.1,
      (if ok then []
       else [.fieldDeleteFail (if f.name = "" then f.id else f.name)]) ++ out.2.2)

/-- Step 3: when the retained table was itself selected, delete all of its
non-index fields. -/
def execStep3 (lastT : Option Table) (lastName : String)
    (selectedTables : List String) (ws : List Table) :
    List Table × List DelAction × List DelError × List DelNotice :=
  match lastT with
  | some lt =>
    if selectedTables.contains lt.id then
      match findTable ws lt.id with
      | none => (ws, [], [.lastTableFieldsFail], [])
      | some t =>
        let nonIndexFields := t.fields.filter (fun f => !f.isPrimary)
        if nonIndexFields.isEmpty then (ws, [], [], [.onlyIndexColumn lastName])
        else
          let out := execDeleteLastFields lt.id nonIndexFields ws
          (out.1, out.2.1, out.2.2, [])
    else (ws, [], [], [])
  | none => (ws, [], [], [])

/-- Everything `performDeletion` produces: the host calls in order, the
toasts, the collected errors, and the workspace afterwards. -/
structure DeletionResult where
  actions : List DelAction
  notices : List DelNotice
  errors : List DelError
  ws : List Table

/-- The retained-table display name used by the toasts (`''` when no
table is retained; the code only reads it when one is). -/
def retainedName (ws : List Table) (selectedTables : List String) : String :=
  match retainedTable ws selectedTables with
  | some lt => retainedDisplayName lt
  | none => ""

/-- Stage 1 of `performDeletion` applied to the initial workspace. -/
def delStage1 (ws : List Table) (selectedTables : List String) :
    List Table × List DelAction × List DelError :=
  execDeleteTables (tableIdsToDelete ws selectedTables) ws

/-- Stage 2 of `performDeletion`, on the state stage 1 leaves. -/
def delStage2 (ws : List Table) (selectedTables : List String)
    (selectedFields : List (String × List String)) :
    List Table × List DelAction × List DelError × List DelNotice :=
  execStep2 (retainedTable ws selectedTables) (retainedName ws selectedTables)
    selectedTables selectedFields (delStage1 ws selectedTables).1

/-- Stage 3 of `performDeletion`, on the state stage 2 leaves. -/
def delStage3 (ws : List Table) (selectedTables : List String)
    (selectedFields : List (String × List String)) :
    List Table × List DelAction × List DelError × List DelNotice :=
  execStep3 (retainedTable ws selectedTables) (retainedName ws selectedTables)
    selectedTables (delStage2 ws selectedTables selectedFields).1

/-- `performDeletion`, over the selection state.  `selectedTables` is the
key list of the selection record (its values are always `true`);
`selectedFields` likewise maps table ids to selected field-id lists. -/
def performDeletion (ws : List Table) (selectedTables : List String)
    (selectedFields : List (String × List String)) : DeletionResult :=
  let retainNotices :=
    match retainedTable ws selectedTables with
    | some lt => [DelNotice.retainLastTable (retainedDisplayName lt)]
    | none => []
  let s1 := delStage1 ws selectedTables
  let s2 := delStage2 ws selectedTables selectedFields
  let s3 := delStage3 ws selectedTables selectedFields
  let errs := s1.2.2 ++ s2.2.2.1 ++ s3.2.2.1
  { actions := s1.2.1 ++ (s2.2.1 ++ s3.2.1)
    notices := retainNotices ++ s2.2.2.2 ++ s3.2.2.2
      ++ [if errs.isEmpty then DelNotice.success else DelNotice.partialFailure]
    errors := errs
    ws := s3.1 }

/-- Is `fid` the id of a field flagged as the index (primary) field of a
table with id `tid` in workspace `ws`? -/
def isPrimaryFieldIn (ws : List Table) (tid fid : String) : Prop :=
  ∃ t ∈ ws, t.id = tid ∧ ∃ f ∈ t.fields, f.id = fid ∧ f.isPrimary = true

instance (ws : List Table) (tid fid : String) :
    Decidable (isPrimaryFieldIn ws tid fid) := by
  unfold isPrimaryFieldIn
  infer_instance

/-! ## The delete flow (`handleDelete`) -/

/-- The observable steps of `handleDelete`, in order. -/
inductive DeleteEvent where
  | noTargetsNotice
  | snapshotCapture (ok : Bool)
  | failureModalShown
  | deletionRun
deriving DecidableEq

/-- `handleDelete`: nothing happens without targets; otherwise the
snapshot capture is awaited first; on success the deletion runs; on
failure the confirm dialog is shown and the deletion runs only when the
user confirms. -/
def handleDelete (totalSelectedTargets : Nat) (captureOk : Bool)
    (userConfirms : Bool) : List DeleteEvent :=
  if totalSelectedTargets = 0 then [.noTargetsNotice]
  else
    .snapshotCapture captureOk ::
      (if captureOk then [.deletionRun]
       else .failureModalShown :: (if userConfirms then [.deletionRun] else []))

/-! ## Rollback (`handleRollback`) -/

/-- `String.prototype.includes`. -/
def strContains (s pat : String) : Bool := decide (pat.data <:+: s.data)

/-- The n-th candidate restored name: the base name itself, then
`base (1)`, `base (2)`, …. -/
def suffixName (base : String) : Nat → String
  | 0 => base
  | n + 1 => base ++ " (" ++ natToStr (n + 1) ++ ")"

/-- The collision-avoidance `while` loop: try candidates in order until
one is not an existing name.  `names.length + 1` iterations always
suffice (the candidates are pairwise distinct), so the fuel never runs
out. -/
def rbNameLoop (names : List String) (base : String) : Nat → Nat → String
  | 0, n => suffixName base n
  | fuel + 1, n =>
    if names.contains (suffixName base n) then rbNameLoop names base fuel (n + 1)
    else suffixName base n

/-- The restored table name chosen against the current name set. -/
def freshRollbackName (names : List String) (base : String) : String :=
  rbNameLoop names base (names.length + 1) 0

/-- A host mutation issued by `handleRollback` (tables referenced by their
chosen rollback name; chosen names are pairwise distinct). -/
inductive RbAction where
  | addTable (name : String)
  | renameField (tableName : String) (fieldId : String) (newName : String)
  | addField (tableName : String) (fieldName : String) (fieldType : Nat)
      (property : Option Json)

/-- The collected rollback report entries, by shape.  In this
deterministic model host mutations succeed, so only the two skip notes are
ever produced; the failure shapes document the remaining error strings of
the source. -/
inductive RbNote where
  | systemFieldSkipped (fieldName : String) (fieldType : Nat)
  | complexFieldUnsupported (fieldName : String) (fieldType : Nat)
  | primaryRenameFail (tableName : String)
  | fieldRebuildFail (fieldName : String) (tableName : String)
  | tableRebuildFail (tableName : String)
deriving DecidableEq

/-- The body of the per-field rollback loop: a blocked type is skipped
with a system-field note, a non-portable type with a complex-field note,
anything else is created with its original name, type and property. -/
def rollbackFieldStep (tableName : String) (f : SnapshotField) :
    List RbAction × List RbNote :=
  if BLOCKED_ROLLBACK_FIELD_TYPES.contains f.type then
    ([], [.systemFieldSkipped f.name f.type])
  else if NON_PORTABLE_ROLLBACK_FIELD_TYPES.contains f.type then
    ([], [.complexFieldUnsupported f.name f.type])
  else
    ([.addField tableName f.name f.type f.property], [])

/-- The idempotent primary-field rename of a freshly created table
(`pf` is the host's auto-generated primary field, if any). -/
def primaryRenameStep (tableName : String) (pf : Option IFieldMeta) : List RbAction :=
  match pf with
  | none => []
  | some p =>
    let safeName :=
      if strContains p.name "(系统默认)" then p.name
      else (if p.name = "" then "主键" else p.name) ++ " (系统默认)"
    if safeName ≠ p.name then [.renameField tableName p.id safeName] else []

/-- The per-table rollback loop.  `names` is the live set of existing
table names (updated as tables are created), `k` counts created tables
(`hostPrimary k` is the auto-generated primary field of the k-th one). -/
def rollbackTables (hostPrimary : Nat → Option IFieldMeta) :
    List SnapshotTable → List String → Nat → List RbAction × List RbNote
  | [], _, _ => ([], [])
  | ts :: rest, names, k =>
    let rollbackTableName := freshRollbackName names ("♻️ " ++ ts.tableName)
    let renames := primaryRenameStep rollbackTableName (hostPrimary k)
    let fieldActs := ts.fields.flatMap (fun f => (rollbackFieldStep rollbackTableName f).1)
    let fieldNotes := ts.fields.flatMap (fun f => (rollbackFieldStep rollbackTableName f).2)
    let tailOut := rollbackTables hostPrimary rest (names ++ [rollbackTableName]) (k + 1)
    (RbAction.addTable rollbackTableName :: (renames ++ fieldActs ++ tailOut.1),
     fieldNotes ++ tailOut.2)

/-- `handleRollback` over a snapshot: replay every snapshot table against
the current name set (`existingTableNames`, from the current
enumeration). -/
def handleRollback (snapshot : Snapshot) (existingTableNames : List String)
    (hostPrimary : Nat → Option IFieldMeta) : List RbAction × List RbNote :=
  rollbackTables hostPrimary snapshot.tables existingTableNames 0

/-- The chosen restored names, in creation order. -/
def rollbackNameSeq (names : List String) : List SnapshotTable → List String
  | [] => []
  | ts :: rest =>
    let n := freshRollbackName names ("♻️ " ++ ts.tableName)
    n :: rollbackNameSeq (names ++ [n]) rest

/-- The names of the `addTable` actions of an action list, in order. -/
def addTableNames (as : List RbAction) : List String :=
  as.filterMap (fun a => match a with | .addTable n => some n | _ => none)

/-! ### Lemmas about the deletion executor -/

/-- A well-formed workspace, as the host guarantees its enumerations:
table ids are unique, and field ids are unique within each table. -/
def WfWorkspace (ws : List Table) : Prop :=
  (ws.map (fun t => t.id)).Nodup ∧ ∀ t ∈ ws, (t.fields.map (fun f => f.id)).Nodup

instance (ws : List Table) : Decidable (WfWorkspace ws) := by
  unfold WfWorkspace
  infer_instance

/-- Evolution invariant: every table of the current state descends from an
original table with the same id, has only a subset of its fields, and
still holds every index field of the original. -/
def PrimPres (ws0 ws : List Table) : Prop :=
  ∀ t ∈ ws, ∃ t0 ∈ ws0, t.id = t0.id ∧ t.fields ⊆ t0.fields ∧
    ∀ f ∈ t0.fields, f.isPrimary = true → f ∈ t.fields

theorem PrimPres_refl (ws : List Table) : PrimPres ws ws := by
  intro t ht
  exact ⟨t, ht, rfl, List.Subset.refl _, fun f hf _ => hf⟩

theorem removeTable_primPres {ws0 ws : List Table} (tid : String)
    (h : PrimPres ws0 ws) : PrimPres ws0 (removeTable ws tid) := by
  intro t ht
  exact h t (List.mem_of_mem_filter ht)

theorem removeField_primPres {ws0 ws : List Table} {tid fid : String}
    (h : PrimPres ws0 ws) (hnp : ¬ isPrimaryFieldIn ws0 tid fid) :
    PrimPres ws0 (removeField ws tid fid) := by
  intro t ht
  rw [removeField, List.mem_map] at ht
  obtain ⟨u, hu, hut⟩ := ht
  obtain ⟨t0, ht0, hid, hsub, hprim⟩ := h u hu
  by_cases hc : (u.id == tid) = true
  · rw [if_pos hc] at hut
    refine ⟨t0, ht0, by rw [← hut, ← hid], ?_, ?_⟩
    · intro f hf
      rw [← hut] at hf
      exact hsub (List.mem_of_mem_filter hf)
    · intro f hf hfp
      have hmem := hprim f hf hfp
      rw [← hut]
      refine List.mem_filter.mpr ⟨hmem, ?_⟩
      simp only [bne_iff_ne, ne_eq, decide_eq_true_eq]
      intro hfid
      apply hnp
      exact ⟨t0, ht0, by rw [← hid]; exact (beq_iff_eq.mp hc), f, hf, hfid, hfp⟩
  · rw [if_neg hc] at hut
    exact hut ▸ ⟨t0, ht0, hid, hsub, hprim⟩

theorem execDeleteTables_actions (ids : List String) (ws : List Table) :
    (execDeleteTables ids ws).2.1 = ids.map DelAction.delTable := by
  induction ids generalizing ws with
  | nil => rfl
  | cons tid rest ih => simp [execDeleteTables, ih]

theorem execDeleteTables_primPres {ws0 : List Table} (ids : List String)
    {ws : List Table} (h : PrimPres ws0 ws) :
    PrimPres ws0 (execDeleteTables ids ws).1 := by
  induction ids generalizing ws with
  | nil => exact h
  | cons tid rest ih => exact ih (removeTable_primPres tid h)

theorem execDeleteFieldIds_actions (tid : String) (fids : List String)
    (ws : List Table) :
    (execDeleteFieldIds tid fids ws).2.1 = fids.map (DelAction.delField tid) := by
  induction fids generalizing ws with
  | nil => rfl
  | cons fid rest ih => simp [execDeleteFieldIds, ih]

theorem execDeleteFieldIds_primPres {ws0 : List Table} {tid : String}
    (fids : List String) {ws : List Table} (h : PrimPres ws0 ws)
    (hnp : ∀ fid ∈ fids, ¬ isPrimaryFieldIn ws0 tid fid) :
    PrimPres ws0 (execDeleteFieldIds tid fids ws).1 := by
  induction fids generalizing ws with
  | nil => exact h
  | cons fid rest ih =>
    exact ih (removeField_primPres h (hnp fid (by simp)))
      (fun f hf => hnp f (by simp [hf]))

theorem execDeleteLastFields_actions (tid : String) (fs : List IFieldMeta)
    (ws : List Table) :
    (execDeleteLastFields tid fs ws).2.1
      = fs.map (fun f => DelAction.delField tid f.id) := by
  induction fs generalizing ws with
  | nil => rfl
  | cons f rest ih => simp [execDeleteLastFields, ih]

theorem execDeleteLastFields_primPres {ws0 : List Table} {tid : String}
    (fs : List IFieldMeta) {ws : List Table} (h : PrimPres ws0 ws)
    (hnp : ∀ f ∈ fs, ¬ isPrimaryFieldIn ws0 tid f.id) :
    PrimPres ws0 (execDeleteLastFields tid fs ws).1 := by
  induction fs generalizing ws with
  | nil => exact h
  | cons f rest ih =>
    exact ih (removeField_primPres h (hnp f (by simp)))
      (fun g hg => hnp g (by simp [hg]))

theorem step2Entry_actions {lastT : Option Table} {lastName : String}
    {selT : List String} {tid : String} {fids : List String} {ws : List Table} :
    ∀ a ∈ (step2Entry lastT lastName selT tid fids ws).2.1,
      ∃ fid ∈ fids, a = DelAction.delField tid fid ∧ selT.contains tid = false := by
  intro a ha
  unfold step2Entry at ha
  by_cases h1 : (selT.contains tid && !(isLastOf lastT tid)) = true
  · rw [if_pos h1] at ha
    simp at ha
  rw [if_neg h1] at ha
  by_cases h2 : (isLastOf lastT tid && selT.contains tid) = true
  · rw [if_pos h2] at ha
    simp at ha
  rw [if_neg h2] at ha
  by_cases h3 : fids.isEmpty = true
  · rw [if_pos h3] at ha
    simp at ha
  rw [if_neg h3] at ha
  have hcon : selT.contains tid = false := by
    cases hc : selT.contains tid
    · rfl
    · exfalso
      cases hl : isLastOf lastT tid
      · exact h1 (by rw [hc, hl]; rfl)
      · exact h2 (by rw [hc, hl]; rfl)
  split at ha
  · simp at ha
  · rename_i t hft
    have hsub : (if isLastOf lastT tid then lastTableFieldFilter t fids else fids)
        ⊆ fids := by
      split
      · intro x hx
        exact List.mem_of_mem_filter hx
      · exact fun x => id
    revert ha
    generalize hfds :
      (if isLastOf lastT tid then lastTableFieldFilter t fids else fids) = fds
    rw [hfds] at hsub
    intro ha
    cases fds with
    | nil => simp at ha
    | cons f fs =>
      simp only [List.isEmpty_cons, Bool.false_eq_true, if_false,
        execDeleteFieldIds_actions, List.mem_map] at ha
      obtain ⟨fid, hfid, rfl⟩ := ha
      exact ⟨fid, hsub hfid, rfl, hcon⟩

theorem step2Entry_primPres {ws0 : List Table} {lastT : Option Table}
    {lastName : String} {selT : List String} {tid : String} {fids : List String}
    {ws : List Table} (h : PrimPres ws0 ws)
    (hnp : ∀ fid ∈ fids, ¬ isPrimaryFieldIn ws0 tid fid) :
    PrimPres ws0 (step2Entry lastT lastName selT tid fids ws).1 := by
  unfold step2Entry
  by_cases h1 : (selT.contains tid && !(isLastOf lastT tid)) = true
  · rw [if_pos h1]
    exact h
  rw [if_neg h1]
  by_cases h2 : (isLastOf lastT tid && selT.contains tid) = true
  · rw [if_pos h2]
    exact h
  rw [if_neg h2]
  by_cases h3 : fids.isEmpty = true
  · rw [if_pos h3]
    exact h
  rw [if_neg h3]
  split
  · exact h
  · rename_i t hft
    have hsub : (if isLastOf lastT tid then lastTableFieldFilter t fids else fids)
        ⊆ fids := by
      split
      · intro x hx
        exact List.mem_of_mem_filter hx
      · exact fun x => id
    revert hsub
    generalize (if isLastOf lastT tid then lastTableFieldFilter t fids else fids) = fds
    intro hsub
    cases fds with
    | nil => exact h
    | cons f fs =>
      simp only [List.isEmpty_cons, Bool.false_eq_true, if_false]
      exact execDeleteFieldIds_primPres _ h (fun fid hfid => hnp fid (hsub hfid))

theorem execStep2_actions {lastT : Option Table} {lastName : String}
    {selT : List String} :
    ∀ (entries : List (String × List String)) (ws : List Table),
      ∀ a ∈ (execStep2 lastT lastName selT entries ws).2.1,
        ∃ tid fids fid, (tid, fids) ∈ entries ∧ fid ∈ fids ∧
          a = DelAction.delField tid fid ∧ selT.contains tid = false := by
  intro entries
  induction entries with
  | nil =>
    intro ws a ha
    simp [execStep2] at ha
  | cons e rest ih =>
    intro ws a ha
    obtain ⟨tid, fids⟩ := e
    simp only [execStep2] at ha
    rcases List.mem_append.mp ha with h | h
    · obtain ⟨fid, hfid, rfl, hcon⟩ := step2Entry_actions a h
      exact ⟨tid, fids, fid, by simp, hfid, rfl, hcon⟩
    · obtain ⟨tid2, fids2, fid2, hmem, hfid, rfl, hcon⟩ := ih _ a h
      exact ⟨tid2, fids2, fid2, by simp [hmem], hfid, rfl, hcon⟩

theorem execStep2_primPres {ws0 : List Table} {lastT : Option Table}
    {lastName : String} {selT : List String} :
    ∀ (entries : List (String × List String)) (ws : List Table),
      PrimPres ws0 ws →
      (∀ e ∈ entries, ∀ fid ∈ e.2, ¬ isPrimaryFieldIn ws0 e.1 fid) →
      PrimPres ws0 (execStep2 lastT lastName selT entries ws).1 := by
  intro entries
  induction entries with
  | nil =>
    intro ws h _
    exact h
  | cons e rest ih =>
    intro ws h hnp
    obtain ⟨tid, fids⟩ := e
    simp only [execStep2]
    refine ih _ (step2Entry_primPres h ?_) ?_
    · exact fun fid hfid => hnp (tid, fids) (by simp) fid hfid
    · exact fun e2 he2 => hnp e2 (by simp [he2])

theorem nodup_tables_unique {ws : List Table}
    (h : (ws.map (fun t => t.id)).Nodup) {t1 t2 : Table}
    (h1 : t1 ∈ ws) (h2 : t2 ∈ ws) (hid : t1.id = t2.id) : t1 = t2 :=
  List.inj_on_of_nodup_map h h1 h2 hid

theorem nodup_fields_unique {fs : List IFieldMeta}
    (h : (fs.map (fun f => f.id)).Nodup) {f1 f2 : IFieldMeta}
    (h1 : f1 ∈ fs) (h2 : f2 ∈ fs) (hid : f1.id = f2.id) : f1 = f2 :=
  List.inj_on_of_nodup_map h h1 h2 hid

theorem execStep3_spec {ws0 : List Table} (lastT : Option Table)
    (lastName : String) (selT : List String) (ws : List Table)
    (hwf : WfWorkspace ws0) (hpres : PrimPres ws0 ws) :
    PrimPres ws0 (execStep3 lastT lastName selT ws).1 ∧
    ∀ a ∈ (execStep3 lastT lastName selT ws).2.1,
      ∃ lt fid, lastT = some lt ∧ a = DelAction.delField lt.id fid ∧
        ¬ isPrimaryFieldIn ws0 lt.id fid := by
  unfold execStep3
  cases lastT with
  | none => exact ⟨hpres, by intro a ha; simp at ha⟩
  | some lt =>
    simp only []
    by_cases hcont : selT.contains lt.id = true
    case neg =>
      rw [if_neg hcont]
      exact ⟨hpres, by intro a ha; simp at ha⟩
    rw [if_pos hcont]
    · cases hft : findTable ws lt.id with
      | none => exact ⟨hpres, by intro a ha; simp at ha⟩
      | some t =>
        simp only []
        have htmem : t ∈ ws := List.mem_of_find?_eq_some hft
        have htid : t.id = lt.id := by
          have := List.find?_some hft
          exact beq_iff_eq.mp this
        have hkey : ∀ f ∈ t.fields.filter (fun f => !f.isPrimary),
            ¬ isPrimaryFieldIn ws0 lt.id f.id := by
          intro f hf hprim
          have hfmem : f ∈ t.fields := List.mem_of_mem_filter hf
          have hfnp : f.isPrimary = false := by
            have := List.of_mem_filter hf
            simpa using this
          obtain ⟨t0, ht0, hid0, hsub, hkeep⟩ := hpres t htmem
          obtain ⟨t0', ht0', hid0', f', hf', hfid', hfp'⟩ := hprim
          have ht00 : t0' = t0 :=
            nodup_tables_unique hwf.1 ht0' ht0 (hid0'.trans (htid.symm.trans hid0))
          rw [ht00] at hf'
          have hff : f' = f := by
            refine nodup_fields_unique (hwf.2 t0 ht0) hf' (hsub hfmem) ?_
            rw [hfid']
          rw [hff] at hfp'
          rw [hfp'] at hfnp
          exact absurd hfnp (by simp)
        by_cases hne : (t.fields.filter (fun f => !f.isPrimary)).isEmpty = true
        · rw [if_pos hne]
          exact ⟨hpres, by intro a ha; simp at ha⟩
        · rw [if_neg hne]
          constructor
          · exact execDeleteLastFields_primPres _ hpres hkey
          · intro a ha
            simp only [execDeleteLastFields_actions, List.mem_map] at ha
            obtain ⟨f, hf, rfl⟩ := ha
            exact ⟨lt, f.id, rfl, rfl, hkey f hf⟩

theorem execStep3_actions_shape (lastT : Option Table) (lastName : String)
    (selT : List String) (ws : List Table) :
    ∀ a ∈ (execStep3 lastT lastName selT ws).2.1,
      ∃ lt fid, lastT = some lt ∧ a = DelAction.delField lt.id fid := by
  unfold execStep3
  cases lastT with
  | none => intro a ha; simp at ha
  | some lt =>
    simp only []
    by_cases hcont : selT.contains lt.id = true
    case neg => rw [if_neg hcont]; intro a ha; simp at ha
    rw [if_pos hcont]
    cases hft : findTable ws lt.id with
    | none => intro a ha; simp at ha
    | some t =>
      simp only []
      by_cases hne : (t.fields.filter (fun f => !f.isPrimary)).isEmpty = true
      · rw [if_pos hne]; intro a ha; simp at ha
      · rw [if_neg hne]
        intro a ha
        simp only [execDeleteLastFields_actions, List.mem_map] at ha
        obtain ⟨f, _, rfl⟩ := ha
        exact ⟨lt, f.id, rfl, rfl⟩

theorem delStage1_actions (ws : List Table) (selT : List String) :
    (delStage1 ws selT).2.1 = (tableIdsToDelete ws selT).map DelAction.delTable :=
  execDeleteTables_actions _ _

theorem performDeletion_actions (ws : List Table) (selT : List String)
    (selF : List (String × List String)) :
    (performDeletion ws selT selF).actions =
      (delStage1 ws selT).2.1
        ++ ((delStage2 ws selT selF).2.1 ++ (delStage3 ws selT selF).2.1) := rfl

theorem performDeletion_ws (ws : List Table) (selT : List String)
    (selF : List (String × List String)) :
    (performDeletion ws selT selF).ws = (delStage3 ws selT selF).1 := rfl

theorem performDeletion_notices (ws : List Table) (selT : List String)
    (selF : List (String × List String)) :
    (performDeletion ws selT selF).notices =
      (match retainedTable ws selT with
       | some lt => [DelNotice.retainLastTable (retainedDisplayName lt)]
       | none => [])
      ++ (delStage2 ws selT selF).2.2.2 ++ (delStage3 ws selT selF).2.2.2
      ++ [if ((delStage1 ws selT).2.2 ++ (delStage2 ws selT selF).2.2.1
              ++ (delStage3 ws selT selF).2.2.1).isEmpty
          then DelNotice.success else DelNotice.partialFailure] := rfl

/-- A concrete text field used by the sample workspaces. -/
def sampleField (idn : String) (pri : Bool) : IFieldMeta :=
  ⟨idn, idn, 1, none, pri⟩

/-- Two tables, each with an index field and one ordinary field. -/
def sampleWs : List Table :=
  [⟨"A", "A", [sampleField "a0" true, sampleField "a1" false]⟩,
   ⟨"B", "B", [sampleField "b0" true, sampleField "b1" false]⟩]

/-- A single table with an index field and one ordinary field. -/
def sampleWs1 : List Table :=
  [⟨"T", "T", [sampleField "f0" true, sampleField "f1" false]⟩]

/-- C1 (corrected): the code filters `isPrimary` only for the retained
table, so the guarantee needs the amendment that the selection's field
lists never name an index field.  Under that restriction (and host
metadata free of duplicate ids), no issued field delete targets an index
field of the original workspace, and every surviving table keeps every
index field it had. -/
theorem claim_C1 (ws : List Table) (selT : List String)
    (selF : List (String × List String)) (hwf : WfWorkspace ws)
    (hsel : ∀ e ∈ selF, ∀ fid ∈ e.2, ¬ isPrimaryFieldIn ws e.1 fid) :
    (∀ a ∈ (performDeletion ws selT selF).actions, ∀ tid fid,
       a = DelAction.delField tid fid → ¬ isPrimaryFieldIn ws tid fid) ∧
    (∀ t ∈ (performDeletion ws selT selF).ws, ∃ t0 ∈ ws, t.id = t0.id ∧
       t.fields ⊆ t0.fields ∧
       ∀ f ∈ t0.fields, f.isPrimary = true → f ∈ t.fields) := by
  have hP1 : PrimPres ws (delStage1 ws selT).1 :=
    execDeleteTables_primPres _ (PrimPres_refl ws)
  have hP2 : PrimPres ws (delStage2 ws selT selF).1 :=
    execStep2_primPres _ _ hP1 hsel
  have hS3 := execStep3_spec (retainedTable ws selT) (retainedName ws selT)
    selT (delStage2 ws selT selF).1 hwf hP2
  constructor
  · intro a ha tid fid haeq
    subst haeq
    rw [performDeletion_actions] at ha
    rcases List.mem_append.mp ha with h1 | h23
    · rw [delStage1_actions] at h1
      obtain ⟨x, _, hx⟩ := List.mem_map.mp h1
      simp at hx
    · rcases List.mem_append.mp h23 with h2 | h3
      · obtain ⟨tid2, fids2, fid2, hmem, hfid2, heq, _⟩ :=
          execStep2_actions _ _ _ h2
        injection heq with e1 e2
        subst e1; subst e2
        exact hsel _ hmem _ hfid2
      · obtain ⟨lt, fid2, _, heq, hnp⟩ := hS3.2 _ h3
        injection heq with e1 e2
        rw [e1, e2]
        exact hnp
  · intro t ht
    rw [performDeletion_ws] at ht
    exact hS3.1 t ht

/-- C1 instantiated: selecting only an ordinary field keeps every index
field safe, and the surviving tables keep their index fields. -/
theorem claim_C1_witness :
    (∀ a ∈ (performDeletion sampleWs ["A"] [("B", ["b1"])]).actions,
       ∀ tid fid, a = DelAction.delField tid fid →
         ¬ isPrimaryFieldIn sampleWs tid fid) ∧
    (∀ t ∈ (performDeletion sampleWs ["A"] [("B", ["b1"])]).ws,
       ∃ t0 ∈ sampleWs, t.id = t0.id ∧ t.fields ⊆ t0.fields ∧
         ∀ f ∈ t0.fields, f.isPrimary = true → f ∈ t.fields) :=
  claim_C1 sampleWs ["A"] [("B", ["b1"])] (by decide) (by decide)

/-- C1 as literally stated fails: selecting the index field of a table
that is not the retained table makes the run issue a field delete aimed
at that index field. -/
theorem claim_C1_counterexample :
    DelAction.delField "A" "a0"
      ∈ (performDeletion sampleWs [] [("A", ["a0"])]).actions ∧
    isPrimaryFieldIn sampleWs "A" "a0" := by
  decide

/-- C2 (confirmed): when the selected table ids are duplicate-free and
cover every current table id (workspace nonempty, host ids
duplicate-free), exactly the last enumerated table is excluded: it is the
retained table, the plan's table deletes are precisely the other selected
ids, and the retain notice naming the retained table is emitted. -/
theorem claim_C2 (ws : List Table) (selT : List String)
    (selF : List (String × List String)) (hne : ws ≠ [])
    (hwf : (ws.map (fun t => t.id)).Nodup) (hnd : selT.Nodup)
    (hcov : ∀ t ∈ ws, t.id ∈ selT) :
    ∃ tl, ws.getLast? = some tl ∧ retainedTable ws selT = some tl ∧
      tl.id ∈ selT ∧ tableIdsToDelete ws selT = selT.erase tl.id ∧
      DelAction.delTable tl.id ∉ (performDeletion ws selT selF).actions ∧
      (∀ tid ∈ selT, tid ≠ tl.id →
         DelAction.delTable tid ∈ (performDeletion ws selT selF).actions) ∧
      DelNotice.retainLastTable (retainedDisplayName tl)
        ∈ (performDeletion ws selT selF).notices := by
  obtain ⟨tl, htl⟩ : ∃ tl, ws.getLast? = some tl :=
    ⟨ws.getLast hne, List.getLast?_eq_getLast_of_ne_nil hne⟩
  have htlmem : tl ∈ ws := by
    have h2 := List.getLast?_eq_getLast_of_ne_nil hne
    rw [htl] at h2
    injection h2 with h2
    rw [h2]
    exact List.getLast_mem hne
  have h0 : 0 < ws.length := List.length_pos.mpr hne
  have hlen : ws.length ≤ selT.length := by
    have hsub : ws.map (fun t => t.id) ⊆ selT := by
      intro x hx
      obtain ⟨t, ht, rfl⟩ := List.mem_map.mp hx
      exact hcov t ht
    have hle := (List.subperm_of_subset hwf hsub).length_le
    simpa using hle
  have hc : (willDeleteAllTables (ws.map (fun t => t.id)) selT
      && decide (0 < (ws.map (fun t => t.id)).length)) = true := by
    simp only [willDeleteAllTables, List.length_map, Bool.and_eq_true,
      decide_eq_true_eq]
    exact ⟨hlen, h0⟩
  have hretain : retainedTable ws selT = some tl := by
    unfold retainedTable
    rw [if_pos hc, htl]
  have htlsel : tl.id ∈ selT := hcov tl htlmem
  have hids : tableIdsToDelete ws selT = selT.erase tl.id := by
    unfold tableIdsToDelete
    rw [hretain]
    exact (List.Nodup.erase_eq_filter hnd tl.id).symm
  refine ⟨tl, htl, hretain, htlsel, hids, ?_, ?_, ?_⟩
  · intro hmem
    rw [performDeletion_actions] at hmem
    rcases List.mem_append.mp hmem with h1 | h23
    · rw [delStage1_actions, hids] at h1
      obtain ⟨x, hx, hxeq⟩ := List.mem_map.mp h1
      injection hxeq with e
      rw [e] at hx
      exact List.Nodup.not_mem_erase hnd hx
    · rcases List.mem_append.mp h23 with h2 | h3
      · obtain ⟨tid2, fids2, fid2, _, _, heq, _⟩ := execStep2_actions _ _ _ h2
        simp at heq
      · obtain ⟨lt, fid2, _, heq⟩ := execStep3_actions_shape _ _ _ _ _ h3
        simp at heq
  · intro tid htid hne2
    have hx : tid ∈ selT.erase tl.id := (List.mem_erase_of_ne hne2).mpr htid
    have h1 : DelAction.delTable tid ∈ (delStage1 ws selT).2.1 := by
      rw [delStage1_actions, hids]
      exact List.mem_map.mpr ⟨tid, hx, rfl⟩
    rw [performDeletion_actions]
    exact List.mem_append.mpr (Or.inl h1)
  · rw [performDeletion_notices, hretain]
    simp

/-- C2 instantiated on the two-table workspace with both tables
selected. -/
theorem claim_C2_witness :
    ∃ tl, sampleWs.getLast? = some tl ∧
      retainedTable sampleWs ["A", "B"] = some tl ∧
      tl.id ∈ ["A", "B"] ∧
      tableIdsToDelete sampleWs ["A", "B"] = ["A", "B"].erase tl.id ∧
      DelAction.delTable tl.id ∉ (performDeletion sampleWs ["A", "B"] []).actions ∧
      (∀ tid ∈ ["A", "B"], tid ≠ tl.id →
         DelAction.delTable tid ∈ (performDeletion sampleWs ["A", "B"] []).actions) ∧
      DelNotice.retainLastTable (retainedDisplayName tl)
        ∈ (performDeletion sampleWs ["A", "B"] []).notices :=
  claim_C2 sampleWs ["A", "B"] [] (by simp [sampleWs]) (by decide) (by decide)
    (by decide)

/-- C3 (corrected): the subsumption holds for every doubly-selected table
except the retained one — that exception is missing from the claim.  For
a doubly-selected table other than the retained table, the run emits its
table delete and no field delete aimed at it. -/
theorem claim_C3 (ws : List Table) (selT : List String)
    (selF : List (String × List String)) (tid : String)
    (ht : tid ∈ selT) (hf : ∃ fids, (tid, fids) ∈ selF)
    (hnr : ∀ t, retainedTable ws selT = some t → t.id ≠ tid) :
    DelAction.delTable tid ∈ (performDeletion ws selT selF).actions ∧
    ∀ fid, DelAction.delField tid fid ∉ (performDeletion ws selT selF).actions := by
  constructor
  · have hid : tid ∈ tableIdsToDelete ws selT := by
      unfold tableIdsToDelete
      cases hr : retainedTable ws selT with
      | none => exact ht
      | some lt =>
        refine List.mem_filter.mpr ⟨ht, ?_⟩
        simp only [bne_iff_ne, ne_eq]
        exact fun h => (hnr lt hr) h.symm
    rw [performDeletion_actions]
    refine List.mem_append.mpr (Or.inl ?_)
    rw [delStage1_actions]
    exact List.mem_map.mpr ⟨tid, hid, rfl⟩
  · intro fid hmem
    rw [performDeletion_actions] at hmem
    rcases List.mem_append.mp hmem with h1 | h23
    · rw [delStage1_actions] at h1
      obtain ⟨x, _, hx⟩ := List.mem_map.mp h1
      simp at hx
    · rcases List.mem_append.mp h23 with h2 | h3
      · obtain ⟨tid2, fids2, fid2, _, _, heq, hcon⟩ :=
          execStep2_actions _ _ _ h2
        injection heq with e1 _
        rw [← e1] at hcon
        have hct : selT.contains tid = true := List.elem_iff.mpr ht
        rw [hct] at hcon
        simp at hcon
      · obtain ⟨lt, fid2, hl, heq⟩ := execStep3_actions_shape _ _ _ _ _ h3
        injection heq with e1 _
        exact (hnr lt hl) e1.symm

/-- C3 instantiated: table `A` both selected whole and listed under the
field selection; it is not retained, so only its table delete runs. -/
theorem claim_C3_witness :
    DelAction.delTable "A"
      ∈ (performDeletion sampleWs ["A"] [("A", ["a1"])]).actions ∧
    ∀ fid, DelAction.delField "A" fid
      ∉ (performDeletion sampleWs ["A"] [("A", ["a1"])]).actions :=
  claim_C3 sampleWs ["A"] [("A", ["a1"])] "A" (by decide) ⟨["a1"], by decide⟩
    (by intro t hr
        rw [show retainedTable sampleWs ["A"] = none from rfl] at hr
        simp at hr)

/-- C3's retained-table exception: the sole table is doubly selected, no
table delete is emitted for it, and its ordinary field is deleted. -/
theorem claim_C3_counterexample :
    ("T" ∈ ["T"] ∧ ("T", ["f1"]) ∈ [("T", ["f1"])]) ∧
    DelAction.delTable "T"
      ∉ (performDeletion sampleWs1 ["T"] [("T", ["f1"])]).actions ∧
    DelAction.delField "T" "f1"
      ∈ (performDeletion sampleWs1 ["T"] [("T", ["f1"])]).actions := by
  decide

/-- C10 (confirmed): the retain decision is a pure cardinality test — on
a nonempty workspace a table is retained iff the selected-id count
reaches the current table count — so a selection padded with a stale id
retains the last table even though its live part leaves a table
standing. -/
theorem claim_C10 :
    (∀ (ws : List Table) (selT : List String), ws ≠ [] →
       ((retainedTable ws selT).isSome ↔ ws.length ≤ selT.length)) ∧
    ((retainedTable sampleWs ["A", "X"]).map (fun t => t.id) = some "B" ∧
     "X" ∉ sampleWs.map (fun t => t.id) ∧
     DelAction.delTable "B" ∉ (performDeletion sampleWs ["A", "X"] []).actions ∧
     DelAction.delTable "A" ∈ (performDeletion sampleWs ["A", "X"] []).actions ∧
     ∃ t ∈ sampleWs, t.id ∉ ["A", "X"]) := by
  constructor
  · intro ws selT hne
    have h0 : 0 < ws.length := List.length_pos.mpr hne
    unfold retainedTable
    by_cases hc : (willDeleteAllTables (ws.map (fun t => t.id)) selT
        && decide (0 < (ws.map (fun t => t.id)).length)) = true
    · rw [if_pos hc]
      simp only [willDeleteAllTables, List.length_map, Bool.and_eq_true,
        decide_eq_true_eq] at hc
      constructor
      · intro _; exact hc.1
      · intro _
        rw [List.getLast?_eq_getLast_of_ne_nil hne]
        rfl
    · rw [if_neg hc]
      simp only [willDeleteAllTables, List.length_map, Bool.and_eq_true,
        decide_eq_true_eq] at hc
      constructor
      · intro habs; simp at habs
      · intro hle; exact absurd ⟨hle, h0⟩ hc
  · exact ⟨rfl, by decide, by decide, by decide, by decide⟩

/-- C10's cardinality test instantiated on the two-table workspace with a
stale selected id. -/
theorem claim_C10_witness :
    (retainedTable sampleWs ["A", "X"]).isSome ↔
      sampleWs.length ≤ (["A", "X"] : List String).length :=
  claim_C10.1 sampleWs ["A", "X"] (by simp [sampleWs])

theorem collectSnapshotTables_ok (fieldsOf : String → Except Unit (List IFieldMeta)) :
    ∀ (metas : List ITableMeta) (tbls : List SnapshotTable),
      collectSnapshotTables fieldsOf metas = .ok tbls ↔
      List.Forall₂ (fun (m : ITableMeta) (tl : SnapshotTable) =>
        ∃ flds, fieldsOf m.id = .ok flds ∧
          tl = ⟨m.id, m.name,
            flds.map (fun f => ⟨f.id, f.name, f.type, f.property⟩)⟩) metas tbls := by
  intro metas
  induction metas with
  | nil =>
    intro tbls
    constructor
    · intro h
      simp only [collectSnapshotTables] at h
      injection h with h
      rw [← h]
      exact List.Forall₂.nil
    · intro h; cases h; rfl
  | cons m rest ih =>
    intro tbls
    constructor
    · intro h
      unfold collectSnapshotTables at h
      cases hf : fieldsOf m.id with
      | error e => rw [hf] at h; simp at h
      | ok flds =>
        rw [hf] at h
        simp only [] at h
        cases hr : collectSnapshotTables fieldsOf rest with
        | error e => rw [hr] at h; simp at h
        | ok tl =>
          rw [hr] at h
          simp only [] at h
          injection h with h
          rw [← h]
          refine List.Forall₂.cons ⟨flds, hf, ?_⟩ ((ih tl).mp hr)
          simp [cloneJson_eq]
    · intro h
      cases h with
      | cons h1 h2 =>
        obtain ⟨flds, hf, rfl⟩ := h1
        unfold collectSnapshotTables
        rw [hf, (ih _).mpr h2]
        simp [cloneJson_eq]

/-- C4 (confirmed): with targets selected, the awaited capture is the
first event — before any deletion runs; after a failed capture the run
happens exactly when the user confirms the failure modal, which is shown
between the capture and any run. -/
theorem claim_C4 (total : Nat) (captureOk userConfirms : Bool) :
    (DeleteEvent.deletionRun ∈ handleDelete total captureOk userConfirms →
       (handleDelete total captureOk userConfirms).head?
         = some (DeleteEvent.snapshotCapture captureOk)) ∧
    (captureOk = false →
       (DeleteEvent.deletionRun ∈ handleDelete total captureOk userConfirms ↔
        total ≠ 0 ∧ userConfirms = true)) ∧
    (captureOk = false → total ≠ 0 →
       handleDelete total captureOk userConfirms
         = DeleteEvent.snapshotCapture false :: DeleteEvent.failureModalShown ::
             (if userConfirms then [DeleteEvent.deletionRun] else [])) := by
  by_cases h0 : total = 0
  · cases captureOk <;> cases userConfirms <;> simp [handleDelete, h0]
  · cases captureOk <;> cases userConfirms <;> simp [handleDelete, h0]

/-- C4 at a concrete input: a failed capture followed by an explicit
confirmation still runs the deletion, after the modal. -/
theorem claim_C4_witness :
    handleDelete 2 false true
      = DeleteEvent.snapshotCapture false :: DeleteEvent.failureModalShown ::
          [DeleteEvent.deletionRun] := by
  have h := (claim_C4 2 false true).2.2 rfl (by decide)
  simpa using h

/-- C5 (confirmed): capture fails exactly when the table enumeration or a
field enumeration raises; a failed capture hands back the previous
snapshot unchanged, and a successful one installs a single snapshot
carrying the supplied label, the clock string taken at the call, and one
entry per enumerated table with its full field list. -/
theorem claim_C5 (prev : Option Snapshot) (label now : String)
    (metaRes : Except Unit (List ITableMeta))
    (fieldsOf : String → Except Unit (List IFieldMeta)) :
    ((captureSnapshot prev label now metaRes fieldsOf).2 = false →
       (captureSnapshot prev label now metaRes fieldsOf).1 = prev) ∧
    (metaRes = .error () →
       captureSnapshot prev label now metaRes fieldsOf = (prev, false)) ∧
    (∀ metas, metaRes = .ok metas →
       collectSnapshotTables fieldsOf metas = .error () →
       captureSnapshot prev label now metaRes fieldsOf = (prev, false)) ∧
    (∀ metas, metaRes = .ok metas →
       (captureSnapshot prev label now metaRes fieldsOf).2 = true →
       ∃ tbls, List.Forall₂ (fun (m : ITableMeta) (tl : SnapshotTable) =>
           ∃ flds, fieldsOf m.id = .ok flds ∧
             tl = ⟨m.id, m.name,
               flds.map (fun f => ⟨f.id, f.name, f.type, f.property⟩)⟩) metas tbls ∧
         (captureSnapshot prev label now metaRes fieldsOf).1
           = some ⟨label, now, tbls⟩) := by
  refine ⟨?_, ?_, ?_, ?_⟩
  · intro h
    unfold captureSnapshot at h ⊢
    cases metaRes with
    | error e => rfl
    | ok metas =>
      simp only [] at h ⊢
      cases hc : collectSnapshotTables fieldsOf metas with
      | error e => rfl
      | ok tbls => rw [hc] at h; simp at h
  · intro hm; subst hm; rfl
  · intro metas hm hc
    subst hm
    unfold captureSnapshot
    simp only []
    rw [hc]
  · intro metas hm h
    subst hm
    unfold captureSnapshot at h ⊢
    simp only [] at h ⊢
    cases hc : collectSnapshotTables fieldsOf metas with
    | error e => rw [hc] at h; simp at h
    | ok tbls =>
      exact ⟨tbls, (collectSnapshotTables_ok fieldsOf metas tbls).mp hc, rfl⟩

/-- C8 (confirmed): a reachable bridge answer is taken as-is (a snapshot
is adopted with the takeover notice; the explicit `null` marker clears
the state); a missing `getData`, a rejected call, or an `undefined`
answer falls back to the local cache, every branch returning normally. -/
theorem claim_C8 (cacheRaw : Option String) (current : Option Snapshot) :
    (∀ s, loadSnapshot (.returns (.snap s)) cacheRaw current
        = (some s, [LoadNotice.tookOverSnapshot])) ∧
    loadSnapshot (.returns .jsNull) cacheRaw current = (none, []) ∧
    (∀ bridge, (bridge = BridgeGet.noGetData ∨ bridge = BridgeGet.throws ∨
        bridge = BridgeGet.returns .undef) →
      loadSnapshot bridge cacheRaw current =
        (match loadPersistedSnapshot cacheRaw with
         | some p => (some p, [LoadNotice.tookOverSnapshot])
         | none => (current, []))) := by
  refine ⟨fun s => rfl, rfl, ?_⟩
  intro bridge hb
  rcases hb with rfl | rfl | rfl <;> rfl

/-- C9 (confirmed): writing any snapshot to the persisted JSON text and
reading the cell back returns a structurally equal snapshot, numeric
field-type codes included. -/
theorem claim_C9 (s : Snapshot) :
    loadPersistedSnapshot (persistSnapshot (some s)) = some s := by
  have hlen : 0 < (stringifyJson (snapshotToJson s)).length :=
    Nat.lt_of_lt_of_le (sizeJ_pos (snapshotToJson s)) (sizeJ_le_length _)
  have hne : (⟨stringifyJson (snapshotToJson s)⟩ : String) ≠ "" := by
    intro h
    have h2 : stringifyJson (snapshotToJson s) = [] := congrArg String.data h
    rw [h2] at hlen
    simp at hlen
  unfold persistSnapshot loadPersistedSnapshot
  simp only []
  rw [if_neg hne, jsonParse_stringify]
  exact jsonToSnapshot_toJson s

/-- The field-create calls of an action list:
(tableName, fieldName, type, property), in order. -/
def addFieldCalls (as : List RbAction) :
    List (String × String × Nat × Option Json) :=
  as.filterMap (fun a => match a with
    | RbAction.addField tn fn ty pr => some (tn, fn, ty, pr)
    | _ => none)

theorem addFieldCalls_append (l1 l2 : List RbAction) :
    addFieldCalls (l1 ++ l2) = addFieldCalls l1 ++ addFieldCalls l2 := by
  simp [addFieldCalls]

theorem addFieldCalls_cons_addTable (n : String) (l : List RbAction) :
    addFieldCalls (RbAction.addTable n :: l) = addFieldCalls l := rfl

theorem addFieldCalls_primaryRenameStep (tn : String) (pf : Option IFieldMeta) :
    addFieldCalls (primaryRenameStep tn pf) = [] := by
  cases pf with
  | none => rfl
  | some p =>
    simp only [primaryRenameStep]
    by_cases h : (if strContains p.name "(系统默认)" then p.name
        else (if p.name = "" then "主键" else p.name) ++ " (系统默认)") ≠ p.name
    · rw [if_pos h]; rfl
    · rw [if_neg h]; rfl

theorem addFieldCalls_fieldActs (tn : String) :
    ∀ fs : List SnapshotField,
      addFieldCalls (fs.flatMap (fun f => (rollbackFieldStep tn f).1))
        = fs.filterMap (fun f =>
            if BLOCKED_ROLLBACK_FIELD_TYPES.contains f.type
               || NON_PORTABLE_ROLLBACK_FIELD_TYPES.contains f.type
            then none
            else some (tn, f.name, f.type, f.property)) := by
  intro fs
  induction fs with
  | nil => rfl
  | cons f rest ih =>
    simp only [List.flatMap_cons]
    rw [addFieldCalls_append, ih]
    by_cases h1 : BLOCKED_ROLLBACK_FIELD_TYPES.contains f.type = true
    · have hh : (rollbackFieldStep tn f).1 = [] := by
        unfold rollbackFieldStep; rw [if_pos h1]
      have hcond : (BLOCKED_ROLLBACK_FIELD_TYPES.contains f.type
          || NON_PORTABLE_ROLLBACK_FIELD_TYPES.contains f.type) = true := by
        rw [h1]; rfl
      rw [hh, List.filterMap_cons, if_pos hcond]
      rfl
    · by_cases h2 : NON_PORTABLE_ROLLBACK_FIELD_TYPES.contains f.type = true
      · have hh : (rollbackFieldStep tn f).1 = [] := by
          unfold rollbackFieldStep; rw [if_neg h1, if_pos h2]
        have hcond : (BLOCKED_ROLLBACK_FIELD_TYPES.contains f.type
            || NON_PORTABLE_ROLLBACK_FIELD_TYPES.contains f.type) = true := by
          rw [h2, Bool.or_true]
        rw [hh, List.filterMap_cons, if_pos hcond]
        rfl
      · have hh : (rollbackFieldStep tn f).1
            = [RbAction.addField tn f.name f.type f.property] := by
          unfold rollbackFieldStep; rw [if_neg h1, if_neg h2]
        rw [Bool.not_eq_true] at h1 h2
        have hncond : ¬ (BLOCKED_ROLLBACK_FIELD_TYPES.contains f.type
            || NON_PORTABLE_ROLLBACK_FIELD_TYPES.contains f.type) = true := by
          rw [h1, h2]
          simp
        rw [hh, List.filterMap_cons, if_neg hncond]
        rfl

theorem addTableNames_append (l1 l2 : List RbAction) :
    addTableNames (l1 ++ l2) = addTableNames l1 ++ addTableNames l2 := by
  simp [addTableNames]

theorem addTableNames_cons_addTable (n : String) (l : List RbAction) :
    addTableNames (RbAction.addTable n :: l) = n :: addTableNames l := rfl

theorem addTableNames_primaryRenameStep (tn : String) (pf : Option IFieldMeta) :
    addTableNames (primaryRenameStep tn pf) = [] := by
  cases pf with
  | none => rfl
  | some p =>
    simp only [primaryRenameStep]
    by_cases h : (if strContains p.name "(系统默认)" then p.name
        else (if p.name = "" then "主键" else p.name) ++ " (系统默认)") ≠ p.name
    · rw [if_pos h]; rfl
    · rw [if_neg h]; rfl

theorem addTableNames_fieldActs (tn : String) :
    ∀ fs : List SnapshotField,
      addTableNames (fs.flatMap (fun f => (rollbackFieldStep tn f).1)) = [] := by
  intro fs
  induction fs with
  | nil => rfl
  | cons f rest ih =>
    simp only [List.flatMap_cons]
    rw [addTableNames_append, ih]
    by_cases h1 : BLOCKED_ROLLBACK_FIELD_TYPES.contains f.type = true
    · have hh : (rollbackFieldStep tn f).1 = [] := by
        unfold rollbackFieldStep; rw [if_pos h1]
      rw [hh]; rfl
    · by_cases h2 : NON_PORTABLE_ROLLBACK_FIELD_TYPES.contains f.type = true
      · have hh : (rollbackFieldStep tn f).1 = [] := by
          unfold rollbackFieldStep; rw [if_neg h1, if_pos h2]
        rw [hh]; rfl
      · have hh : (rollbackFieldStep tn f).1
            = [RbAction.addField tn f.name f.type f.property] := by
          unfold rollbackFieldStep; rw [if_neg h1, if_neg h2]
        rw [hh]; rfl

theorem rollbackTables_cons_actions (hostPrimary : Nat → Option IFieldMeta)
    (t : SnapshotTable) (rest : List SnapshotTable) (names : List String)
    (k : Nat) :
    (rollbackTables hostPrimary (t :: rest) names k).1
      = RbAction.addTable (freshRollbackName names ("♻️ " ++ t.tableName))
          :: (primaryRenameStep (freshRollbackName names ("♻️ " ++ t.tableName))
                (hostPrimary k)
              ++ t.fields.flatMap (fun f => (rollbackFieldStep
                    (freshRollbackName names ("♻️ " ++ t.tableName)) f).1)
              ++ (rollbackTables hostPrimary rest
                    (names ++ [freshRollbackName names ("♻️ " ++ t.tableName)])
                    (k + 1)).1) := rfl

theorem rollbackTables_cons_notes (hostPrimary : Nat → Option IFieldMeta)
    (t : SnapshotTable) (rest : List SnapshotTable) (names : List String)
    (k : Nat) :
    (rollbackTables hostPrimary (t :: rest) names k).2
      = t.fields.flatMap (fun f => (rollbackFieldStep
            (freshRollbackName names ("♻️ " ++ t.tableName)) f).2)
        ++ (rollbackTables hostPrimary rest
              (names ++ [freshRollbackName names ("♻️ " ++ t.tableName)])
              (k + 1)).2 := rfl

theorem rollbackNameSeq_cons (names : List String) (t : SnapshotTable)
    (rest : List SnapshotTable) :
    rollbackNameSeq names (t :: rest)
      = freshRollbackName names ("♻️ " ++ t.tableName)
          :: rollbackNameSeq
              (names ++ [freshRollbackName names ("♻️ " ++ t.tableName)]) rest := rfl

theorem rollbackTables_notes (hostPrimary : Nat → Option IFieldMeta) :
    ∀ (ts : List SnapshotTable) (names : List String) (k : Nat),
      (rollbackTables hostPrimary ts names k).2
        = ts.flatMap (fun t => t.fields.flatMap (fun f =>
            if BLOCKED_ROLLBACK_FIELD_TYPES.contains f.type
            then [RbNote.systemFieldSkipped f.name f.type]
            else if NON_PORTABLE_ROLLBACK_FIELD_TYPES.contains f.type
            then [RbNote.complexFieldUnsupported f.name f.type]
            else [])) := by
  intro ts
  induction ts with
  | nil => intro names k; rfl
  | cons t rest ih =>
    intro names k
    have hfun : (fun f => (rollbackFieldStep
          (freshRollbackName names ("♻️ " ++ t.tableName)) f).2)
        = (fun f : SnapshotField =>
            if BLOCKED_ROLLBACK_FIELD_TYPES.contains f.type
            then [RbNote.systemFieldSkipped f.name f.type]
            else if NON_PORTABLE_ROLLBACK_FIELD_TYPES.contains f.type
            then [RbNote.complexFieldUnsupported f.name f.type]
            else []) := by
      funext f
      unfold rollbackFieldStep
      by_cases h1 : BLOCKED_ROLLBACK_FIELD_TYPES.contains f.type = true
      · rw [if_pos h1, if_pos h1]
      · rw [if_neg h1, if_neg h1]
        by_cases h2 : NON_PORTABLE_ROLLBACK_FIELD_TYPES.contains f.type = true
        · rw [if_pos h2, if_pos h2]
        · rw [if_neg h2, if_neg h2]
    rw [rollbackTables_cons_notes, ih _ _, hfun, List.flatMap_cons]

theorem rollbackTables_addFields (hostPrimary : Nat → Option IFieldMeta) :
    ∀ (ts : List SnapshotTable) (names : List String) (k : Nat),
      addFieldCalls (rollbackTables hostPrimary ts names k).1
        = (ts.zip (rollbackNameSeq names ts)).flatMap (fun p =>
            p.1.fields.filterMap (fun f =>
              if BLOCKED_ROLLBACK_FIELD_TYPES.contains f.type
                 || NON_PORTABLE_ROLLBACK_FIELD_TYPES.contains f.type
              then none
              else some (p.2, f.name, f.type, f.property))) := by
  intro ts
  induction ts with
  | nil => intro names k; rfl
  | cons t rest ih =>
    intro names k
    rw [rollbackTables_cons_actions, addFieldCalls_cons_addTable,
      addFieldCalls_append, addFieldCalls_append,
      addFieldCalls_primaryRenameStep, addFieldCalls_fieldActs, ih _ _,
      rollbackNameSeq_cons, List.zip_cons_cons, List.flatMap_cons]
    simp

theorem rollbackTables_addTableNames (hostPrimary : Nat → Option IFieldMeta) :
    ∀ (ts : List SnapshotTable) (names : List String) (k : Nat),
      addTableNames (rollbackTables hostPrimary ts names k).1
        = rollbackNameSeq names ts := by
  intro ts
  induction ts with
  | nil => intro names k; rfl
  | cons t rest ih =>
    intro names k
    rw [rollbackTables_cons_actions, addTableNames_cons_addTable,
      addTableNames_append, addTableNames_append,
      addTableNames_primaryRenameStep, addTableNames_fieldActs, ih _ _,
      rollbackNameSeq_cons]
    simp

/-- C6 (confirmed): the rollback report lists, per snapshot field in
order, exactly one system-field note for a blocked type, exactly one
complex-field note for a non-portable type and nothing otherwise; and the
field-create calls are exactly the remaining fields, each against its
table's chosen rollback name with its original name, type and property. -/
theorem claim_C6 (snap : Snapshot) (names : List String)
    (hostPrimary : Nat → Option IFieldMeta) :
    (handleRollback snap names hostPrimary).2
      = snap.tables.flatMap (fun ts => ts.fields.flatMap (fun f =>
          if BLOCKED_ROLLBACK_FIELD_TYPES.contains f.type
          then [RbNote.systemFieldSkipped f.name f.type]
          else if NON_PORTABLE_ROLLBACK_FIELD_TYPES.contains f.type
          then [RbNote.complexFieldUnsupported f.name f.type]
          else [])) ∧
    addFieldCalls (handleRollback snap names hostPrimary).1
      = (snap.tables.zip (rollbackNameSeq names snap.tables)).flatMap (fun p =>
          p.1.fields.filterMap (fun f =>
            if BLOCKED_ROLLBACK_FIELD_TYPES.contains f.type
               || NON_PORTABLE_ROLLBACK_FIELD_TYPES.contains f.type
            then none
            else some (p.2, f.name, f.type, f.property))) :=
  ⟨rollbackTables_notes hostPrimary snap.tables names 0,
   rollbackTables_addFields hostPrimary snap.tables names 0⟩

theorem suffixName_injective (base : String) :
    Function.Injective (suffixName base) := by
  intro m n h
  cases m with
  | zero =>
    cases n with
    | zero => rfl
    | succ n =>
      exfalso
      have hlen := congrArg String.length h
      have h2 : (" (" : String).length = 2 := rfl
      have h3 : (")" : String).length = 1 := rfl
      simp only [suffixName, String.length_append, h2, h3] at hlen
      omega
  | succ m =>
    cases n with
    | zero =>
      exfalso
      have hlen := congrArg String.length h
      have h2 : (" (" : String).length = 2 := rfl
      have h3 : (")" : String).length = 1 := rfl
      simp only [suffixName, String.length_append, h2, h3] at hlen
      omega
    | succ n =>
      have hd := congrArg String.data h
      simp only [suffixName, String.data_append, List.append_assoc] at hd
      have h1 := List.append_cancel_left hd
      have h2 := List.append_cancel_left h1
      have h3 := List.append_cancel_right h2
      have h4 : natToStr (m + 1) = natToStr (n + 1) := String.ext h3
      have h5 := natToStr_injective h4
      omega

theorem fresh_exists (names : List String) (base : String) :
    ∃ j, j < names.length + 1 ∧ suffixName base j ∉ names := by
  by_contra hall
  push_neg at hall
  have hsub : (List.range (names.length + 1)).map (suffixName base) ⊆ names := by
    intro x hx
    obtain ⟨j, hj, rfl⟩ := List.mem_map.mp hx
    exact hall j (List.mem_range.mp hj)
  have hnd : ((List.range (names.length + 1)).map (suffixName base)).Nodup :=
    List.Nodup.map (suffixName_injective base) (List.nodup_range _)
  have hle := (List.subperm_of_subset hnd hsub).length_le
  simp only [List.length_map, List.length_range] at hle
  omega

theorem rbNameLoop_min (names : List String) (base : String) :
    ∀ (fuel start : Nat),
      (∃ j, j < fuel ∧ suffixName base (start + j) ∉ names) →
      ∃ m, start ≤ m ∧ rbNameLoop names base fuel start = suffixName base m ∧
        suffixName base m ∉ names ∧
        ∀ j, start ≤ j → j < m → suffixName base j ∈ names := by
  intro fuel
  induction fuel with
  | zero =>
    intro start hex
    obtain ⟨j, hj, _⟩ := hex
    exact absurd hj (Nat.not_lt_zero j)
  | succ fuel ih =>
    intro start hex
    by_cases hc : names.contains (suffixName base start) = true
    · have hmem : suffixName base start ∈ names := by
        rw [← List.elem_iff]
        exact hc
      obtain ⟨j0, hj0, hfr⟩ := hex
      have hj0ne : j0 ≠ 0 := by
        intro h0
        rw [h0, Nat.add_zero] at hfr
        exact hfr hmem
      obtain ⟨j1, rfl⟩ : ∃ j1, j0 = j1 + 1 := ⟨j0 - 1, by omega⟩
      have hex2 : ∃ j, j < fuel ∧ suffixName base (start + 1 + j) ∉ names :=
        ⟨j1, by omega, by rw [show start + 1 + j1 = start + (j1 + 1) by omega]
                          exact hfr⟩
      obtain ⟨m, hm1, hm2, hm3, hm4⟩ := ih (start + 1) hex2
      refine ⟨m, by omega, ?_, hm3, ?_⟩
      · simp only [rbNameLoop]
        rw [if_pos hc]
        exact hm2
      · intro j hj1 hj2
        by_cases hjs : j = start
        · rw [hjs]; exact hmem
        · exact hm4 j (by omega) hj2
    · refine ⟨start, Nat.le_refl _, ?_, ?_, ?_⟩
      · simp only [rbNameLoop]
        rw [if_neg hc]
      · intro hmem
        apply hc
        rw [List.elem_iff]
        exact hmem
      · intro j hj1 hj2
        exact absurd hj2 (by omega)

theorem freshRollbackName_spec (ns : List String) (base : String) :
    ∃ m, freshRollbackName ns base = suffixName base m ∧
      suffixName base m ∉ ns ∧ ∀ j, j < m → suffixName base j ∈ ns := by
  obtain ⟨j, hj, hfr⟩ := fresh_exists ns base
  obtain ⟨m, _, hm2, hm3, hm4⟩ := rbNameLoop_min ns base (ns.length + 1) 0
    ⟨j, hj, by simpa using hfr⟩
  exact ⟨m, hm2, hm3, fun j hj2 => hm4 j (Nat.zero_le j) hj2⟩

theorem freshRollbackName_not_mem (ns : List String) (base : String) :
    freshRollbackName ns base ∉ ns := by
  obtain ⟨m, heq, hnm, _⟩ := freshRollbackName_spec ns base
  rw [heq]
  exact hnm

theorem rollbackNameSeq_spec :
    ∀ (ts : List SnapshotTable) (names : List String),
      (∀ n ∈ rollbackNameSeq names ts, n ∉ names) ∧
      (rollbackNameSeq names ts).Nodup ∧
      List.Forall₂ (fun (ts' : SnapshotTable) (n : String) =>
        ∃ m, n = suffixName ("♻️ " ++ ts'.tableName) m)
        ts (rollbackNameSeq names ts) := by
  intro ts
  induction ts with
  | nil =>
    intro names
    refine ⟨?_, ?_, ?_⟩
    · intro n hn
      simp [rollbackNameSeq] at hn
    · simp [rollbackNameSeq]
    · exact List.Forall₂.nil
  | cons t rest ih =>
    intro names
    obtain ⟨ha, hb, hc⟩ :=
      ih (names ++ [freshRollbackName names ("♻️ " ++ t.tableName)])
    refine ⟨?_, ?_, ?_⟩
    · intro n hn
      rw [rollbackNameSeq_cons] at hn
      rcases List.mem_cons.mp hn with rfl | hn2
      · exact freshRollbackName_not_mem names _
      · intro hmem
        exact (ha n hn2) (List.mem_append.mpr (Or.inl hmem))
    · rw [rollbackNameSeq_cons]
      refine List.nodup_cons.mpr ⟨?_, hb⟩
      intro hmem
      exact (ha _ hmem) (List.mem_append.mpr (Or.inr (by simp)))
    · rw [rollbackNameSeq_cons]
      refine List.Forall₂.cons ?_ hc
      obtain ⟨m, heq, _, _⟩ :=
        freshRollbackName_spec names ("♻️ " ++ t.tableName)
      exact ⟨m, heq⟩

/-- C7 (confirmed): the created tables carry exactly the chosen name
sequence; each chosen name is the first candidate
`"♻️ " ++ originalName`, `… (1)`, `… (2)`, … not already present (so a
collision appends the smallest workable suffix); no chosen name collides
with an existing or earlier-chosen name, and the chosen names are
pairwise distinct — same-named snapshot tables end up distinguished by
their numeric suffix. -/
theorem claim_C7 (snap : Snapshot) (names : List String)
    (hostPrimary : Nat → Option IFieldMeta) :
    addTableNames (handleRollback snap names hostPrimary).1
      = rollbackNameSeq names snap.tables ∧
    (∀ (ns : List String) (base : String), ∃ m,
       freshRollbackName ns base = suffixName base m ∧
       suffixName base m ∉ ns ∧ ∀ j, j < m → suffixName base j ∈ ns) ∧
    (∀ n ∈ rollbackNameSeq names snap.tables, n ∉ names) ∧
    (rollbackNameSeq names snap.tables).Nodup ∧
    List.Forall₂ (fun (ts : SnapshotTable) (n : String) =>
      ∃ m, n = suffixName ("♻️ " ++ ts.tableName) m)
      snap.tables (rollbackNameSeq names snap.tables) := by
  obtain ⟨ha, hb, hc⟩ := rollbackNameSeq_spec snap.tables names
  exact ⟨rollbackTables_addTableNames hostPrimary snap.tables names 0,
    fun ns base => freshRollbackName_spec ns base, ha, hb, hc⟩

end BulkDel
